import Mathlib

/-!
Verification of the Memory-Base long-term storage core.

This file shallowly embeds the Python modules `memory_base/long_term_storage.py`,
`memory_base/semantics.py` and `memory_base/models.py`:

* Python strings are modelled as `List Char` (sequences of Unicode scalar values;
  lone surrogates, which Lean's `Char` cannot represent, are outside the model).
* Byte payloads are modelled by their UTF-8-decoded character sequences: Python's
  UTF-8 codec is a bijection between strings and valid UTF-8 byte payloads, and
  every payload this layer stores or reads is such an encoding.
* The Python `dict` backing `InMemoryLongTermStorage` is modelled as an
  insertion-ordered association list with unique keys.
* `json.dumps(..., ensure_ascii=False)` / `json.loads` are modelled over an
  explicit JSON value type.  Floating-point numbers (and the nonstandard
  `NaN`/`Infinity` tokens Python accepts) are excluded from the model, as
  floating-point semantics are not shallowly embeddable; all payloads produced
  by this repository are float-free.
* Python's `str.strip()` is modelled over the ASCII whitespace characters
  (space, tab, newline, carriage return, vertical tab, form feed); exotic
  Unicode whitespace is outside the model.
* Python's `str.lower()` is modelled by ASCII lowercasing; one-to-many Unicode
  case foldings are outside the model (the repository's data is Chinese text,
  which is caseless, plus ASCII).
-/

set_option autoImplicit false

namespace MemoryBase

/-- Python strings, modelled as lists of Unicode scalar values. -/
abbrev PyStr := List Char

/-- Byte payloads, modelled by their UTF-8-decoded character sequence. -/
abbrev Bytes := PyStr

/-- Convenience conversion from a Lean string literal to a `PyStr`. -/
def pyOfString (s : String) : PyStr := s.data

/-- Model of Python `str.isspace` characters relevant to `str.strip()`:
space, tab, newline, carriage return, vertical tab, form feed. -/
def isPySpace (c : Char) : Bool :=
  c = ' ' || c = '\t' || c = '\n' || c = '\r' || c = Char.ofNat 11 || c = Char.ofNat 12

/-- Model of Python `str.lstrip()`. -/
def pyStripLeft (s : PyStr) : PyStr := s.dropWhile isPySpace

/-- Model of Python `str.rstrip()`. -/
def pyStripRight (s : PyStr) : PyStr := (s.reverse.dropWhile isPySpace).reverse

/-- Model of Python `str.strip()`. -/
def pyStrip (s : PyStr) : PyStr := pyStripLeft (pyStripRight s)

/-- Model of Python `s.split("\n")` (split on an explicit separator). -/
def splitLines : PyStr → List PyStr
  | [] => [[]]
  | c :: rest =>
    match splitLines rest with
    | [] => [[]]
    | l :: ls => if c = '\n' then [] :: l :: ls else (c :: l) :: ls

/-- Model of Python `"\n".join(lines)`. -/
def joinLines : List PyStr → PyStr
  | [] => []
  | [l] => l
  | l :: l2 :: ls => l ++ '\n' :: joinLines (l2 :: ls)

/-- Model of Python ASCII lowercasing of one character (the `str.lower`
fragment exercised by this repository). -/
def pyLowerChar (c : Char) : Char :=
  if 65 ≤ c.toNat ∧ c.toNat ≤ 90 then Char.ofNat (c.toNat + 32) else c

/-- Model of Python `str.lower()` (ASCII fragment). -/
def pyLower (s : PyStr) : PyStr := s.map pyLowerChar

/-- Model of the Python slice `lst[:k]` for an arbitrary (possibly negative)
integer bound `k`: a nonnegative bound keeps the first `k` elements, a negative
bound removes the last `|k|` elements. -/
def pySliceTo {α : Type} (k : Int) (l : List α) : List α :=
  if 0 ≤ k then l.take k.toNat else l.take (l.length - k.natAbs)

/-! ## Object key scheme (`long_term_storage.py`, lines 19-26) -/

/-- Embedding of `profile_key`: the f-string `profiles/` + user_id + `.json`. -/
def profile_key (user_id : PyStr) : PyStr :=
  pyOfString "profiles/" ++ user_id ++ pyOfString ".json"

/-- Embedding of `knowledge_key`: the f-string `knowledge/` + user_id + `.jsonl`. -/
def knowledge_key (user_id : PyStr) : PyStr :=
  pyOfString "knowledge/" ++ user_id ++ pyOfString ".jsonl"

/-! ## In-memory backend (`long_term_storage.py`, lines 49-69)

The Python class holds `self._store: dict[str, bytes]`.  A Python `dict` is an
insertion-ordered map with unique keys; we model it as an association list and
carry the unique-key invariant `keysNodup` where a property depends on it. -/

/-- The backing store of `InMemoryLongTermStorage`: an insertion-ordered
key/value association list modelling a Python `dict[str, bytes]`. -/
abbrev InMemoryStore := List (PyStr × Bytes)

/-- The unique-key invariant every Python `dict` satisfies. -/
def keysNodup (st : InMemoryStore) : Prop := (st.map Prod.fst).Nodup

/-- Embedding of `InMemoryLongTermStorage.__init__`: the empty store. -/
def emptyStore : InMemoryStore := []

/-- Embedding of `put_object`: `self._store[key] = body`.  Updating an existing
key replaces its value in place; a new key is appended.  (The `body.encode("utf-8")`
normalisation is the identity in this model, see the header note on `Bytes`.) -/
def put_object (key : PyStr) (body : Bytes) : InMemoryStore → InMemoryStore
  | [] => [(key, body)]
  | (k, v) :: rest =>
    if k = key then (key, body) :: rest else (k, v) :: put_object key body rest

/-- Embedding of `get_object`: `self._store.get(key)`. -/
def get_object (key : PyStr) : InMemoryStore → Option Bytes
  | [] => none
  | (k, v) :: rest => if k = key then some v else get_object key rest

/-- Embedding of `delete_object`: `self._store.pop(key, None)`. -/
def delete_object (key : PyStr) : InMemoryStore → InMemoryStore
  | [] => []
  | (k, v) :: rest => if k = key then rest else (k, v) :: delete_object key rest

/-- Embedding of the `list_prefix` method:
`[k for k in self._store if k.startswith(prefix)]`. -/
def list_prefix_keys (p : PyStr) (st : InMemoryStore) : List PyStr :=
  (st.map Prod.fst).filter (fun k => p.isPrefixOf k)

/-! ## JSON values

The JSON data model shared by `json.dumps` / `json.loads` as used by
`semantics.py`.  Floating-point numbers are excluded (see the header note). -/

/-- A JSON value: `null`, booleans, integers, strings, arrays and objects.
Objects are insertion-ordered association lists, modelling Python dicts. -/
inductive JsonValue where
  | null : JsonValue
  | bool (b : Bool) : JsonValue
  | int (n : Int) : JsonValue
  | str (s : PyStr) : JsonValue
  | arr (elems : List JsonValue) : JsonValue
  | obj (members : List (PyStr × JsonValue)) : JsonValue
deriving Inhabited

/-- Lowercase hexadecimal digit, as emitted by Python's `'\u%04x'` formatting. -/
def hexDigit (n : Nat) : Char :=
  if n < 10 then Char.ofNat (48 + n) else Char.ofNat (87 + n)

/-- Decimal digit character. -/
def digitChar (n : Nat) : Char := Char.ofNat (48 + n)

/-- Decimal representation of a natural number (fueled so that it computes by
kernel reduction; the fuel `n + 1` always suffices). -/
def natReprAux : Nat → Nat → PyStr
  | 0, _ => []
  | fuel + 1, n => if n < 10 then [digitChar n] else natReprAux fuel (n / 10) ++ [digitChar (n % 10)]

/-- Model of Python `str(n)` for a nonnegative integer. -/
def natRepr (n : Nat) : PyStr := natReprAux (n + 1) n

/-- Model of Python `str(i)` for an integer. -/
def intRepr (i : Int) : PyStr :=
  if i < 0 then '-' :: natRepr i.natAbs else natRepr i.toNat

/-- Model of the escaping `json.dumps(..., ensure_ascii=False)` applies to one
character of a string: the two-character escapes of `ESCAPE_DCT`, `\u00xx` for
the remaining control characters, and everything else (including non-ASCII)
kept literally. -/
def escapeChar (c : Char) : PyStr :=
  if c = '"' then ['\\', '"']
  else if c = '\\' then ['\\', '\\']
  else if c = Char.ofNat 8 then ['\\', 'b']
  else if c = Char.ofNat 12 then ['\\', 'f']
  else if c = '\n' then ['\\', 'n']
  else if c = '\r' then ['\\', 'r']
  else if c = '\t' then ['\\', 't']
  else if c.toNat < 32 then ['\\', 'u', '0', '0', hexDigit (c.toNat / 16), hexDigit (c.toNat % 16)]
  else [c]

/-- JSON string-body encoding: every character escaped per `escapeChar`. -/
def escapeString (s : PyStr) : PyStr := s.flatMap escapeChar

mutual

/-- Embedding of `json.dumps(v, ensure_ascii=False)` with the default
separators (`", "` between items, `": "` after keys). -/
def printValue : JsonValue → PyStr
  | .null => pyOfString "null"
  | .bool true => pyOfString "true"
  | .bool false => pyOfString "false"
  | .int n => intRepr n
  | .str s => '"' :: escapeString s ++ ['"']
  | .arr xs => '[' :: printElems xs ++ [']']
  | .obj kvs => '\x7b' :: printMembers kvs ++ ['\x7d']

/-- Array items of `json.dumps`, joined by `", "`. -/
def printElems : List JsonValue → PyStr
  | [] => []
  | [x] => printValue x
  | x :: y :: xs => printValue x ++ ',' :: ' ' :: printElems (y :: xs)

/-- Object members of `json.dumps`: `"key": value`, joined by `", "`. -/
def printMembers : List (PyStr × JsonValue) → PyStr
  | [] => []
  | [(k, v)] => '"' :: escapeString k ++ '"' :: ':' :: ' ' :: printValue v
  | (k, v) :: m :: ms =>
    ('"' :: escapeString k ++ '"' :: ':' :: ' ' :: printValue v) ++ ',' :: ' ' :: printMembers (m :: ms)

end

/-- Escaping used inside Python `repr` of a string, for the quote character
`q`.  Caveat: for codepoints at or above `0x20` the model keeps the character
literally, whereas CPython additionally `\x`-escapes non-printable non-ASCII
codepoints; the ASCII-and-Chinese data of this repository is unaffected. -/
def reprEscapeChar (q : Char) (c : Char) : PyStr :=
  if c = '\\' then ['\\', '\\']
  else if c = q then ['\\', q]
  else if c = '\n' then ['\\', 'n']
  else if c = '\r' then ['\\', 'r']
  else if c = '\t' then ['\\', 't']
  else if c.toNat < 32 ∨ c.toNat = 127 then
    ['\\', 'x', hexDigit (c.toNat / 16), hexDigit (c.toNat % 16)]
  else [c]

/-- Model of Python `repr` of a string: single-quoted, unless the string
contains a single quote but no double quote. -/
def strRepr (s : PyStr) : PyStr :=
  let q : Char := if '\'' ∈ s ∧ '"' ∉ s then '"' else '\''
  q :: s.flatMap (reprEscapeChar q) ++ [q]

mutual

/-- Model of Python `repr(v)` for a JSON-shaped Python value. -/
def pyRepr : JsonValue → PyStr
  | .null => pyOfString "None"
  | .bool true => pyOfString "True"
  | .bool false => pyOfString "False"
  | .int n => intRepr n
  | .str s => strRepr s
  | .arr xs => '[' :: reprElems xs ++ [']']
  | .obj kvs => '\x7b' :: reprMembers kvs ++ ['\x7d']

/-- List items of Python `repr`, joined by `", "`. -/
def reprElems : List JsonValue → PyStr
  | [] => []
  | [x] => pyRepr x
  | x :: y :: xs => pyRepr x ++ ',' :: ' ' :: reprElems (y :: xs)

/-- Dict members of Python `repr`: `key_repr: value_repr`, joined by `", "`. -/
def reprMembers : List (PyStr × JsonValue) → PyStr
  | [] => []
  | [(k, v)] => strRepr k ++ ':' :: ' ' :: pyRepr v
  | (k, v) :: m :: ms => (strRepr k ++ ':' :: ' ' :: pyRepr v) ++ ',' :: ' ' :: reprMembers (m :: ms)

end

/-- Model of Python `str(v)`: the identity on strings, `repr` otherwise
(as invoked by `parse_triples` via `str(arr[i])`). -/
def pyStrOf : JsonValue → PyStr
  | .str s => s
  | v => pyRepr v

/-! ## JSON parser (`json.loads`)

A fueled recursive-descent parser mirroring the pure-Python `json.decoder`
scanner: strings with escape and surrogate-pair handling (strict mode, so raw
control characters inside strings are rejected), objects, arrays, the three
literals, and integer numbers.  Fuel strictly decreases on every recursive
call; `json_loads` supplies `input length + 1`, which is always sufficient
(proved below via the `measureValue` bound). -/

/-- JSON inter-token whitespace, Python's `WHITESPACE` regex `[ \t\n\r]*`. -/
def isJsonWs (c : Char) : Bool :=
  c = ' ' || c = '\t' || c = '\n' || c = '\r'

/-- Skip inter-token whitespace. -/
def skipWs (s : PyStr) : PyStr := s.dropWhile isJsonWs

/-- Value of one hexadecimal digit character. -/
def hexVal (c : Char) : Option Nat :=
  if 48 ≤ c.toNat ∧ c.toNat ≤ 57 then some (c.toNat - 48)
  else if 97 ≤ c.toNat ∧ c.toNat ≤ 102 then some (c.toNat - 87)
  else if 65 ≤ c.toNat ∧ c.toNat ≤ 70 then some (c.toNat - 55)
  else none

/-- Parse exactly four hexadecimal digits (the `XXXX` of a `\uXXXX` escape). -/
def parseHex4 : PyStr → Option (Nat × PyStr)
  | a :: b :: c :: d :: rest => do
    let va ← hexVal a
    let vb ← hexVal b
    let vc ← hexVal c
    let vd ← hexVal d
    some (va * 4096 + vb * 256 + vc * 16 + vd, rest)
  | _ => none

/-- The inverse of the two-character JSON escapes (`BACKSLASH` table). -/
def escapeCharInv (e : Char) : Option Char :=
  if e = '"' then some '"'
  else if e = '\\' then some '\\'
  else if e = '/' then some '/'
  else if e = 'b' then some (Char.ofNat 8)
  else if e = 'f' then some (Char.ofNat 12)
  else if e = 'n' then some '\n'
  else if e = 'r' then some '\r'
  else if e = 't' then some '\t'
  else none

/-- Model of `json.decoder.py_scanstring` (strict mode), applied after the
opening quote has been consumed.  Lone surrogate escapes, which CPython keeps
as unpaired surrogate code units, are not representable in `Char` and are
outside the model (rejected). -/
def parseStringBody : Nat → PyStr → Option (PyStr × PyStr)
  | 0, _ => none
  | _ + 1, [] => none
  | fuel + 1, c :: rest =>
    if c = '"' then some ([], rest)
    else if c = '\\' then
      match rest with
      | [] => none
      | e :: rest2 =>
        if e = 'u' then
          match parseHex4 rest2 with
          | none => none
          | some (code, r2) =>
            if 0xD800 ≤ code ∧ code ≤ 0xDBFF then
              match r2 with
              | e2 :: u2 :: r3 =>
                if e2 = '\\' ∧ u2 = 'u' then
                  match parseHex4 r3 with
                  | some (code2, r4) =>
                    if 0xDC00 ≤ code2 ∧ code2 ≤ 0xDFFF then
                      (parseStringBody fuel r4).map fun (s, r) =>
                        (Char.ofNat (0x10000 + (code - 0xD800) * 1024 + (code2 - 0xDC00)) :: s, r)
                    else none
                  | none => none
                else none
              | _ => none
            else if 0xDC00 ≤ code ∧ code ≤ 0xDFFF then none
            else (parseStringBody fuel r2).map fun (s, r) => (Char.ofNat code :: s, r)
        else
          match escapeCharInv e with
          | some ec => (parseStringBody fuel rest2).map fun (s, r) => (ec :: s, r)
          | none => none
    else if c.toNat < 32 then none
    else (parseStringBody fuel rest).map fun (s, r) => (c :: s, r)

/-- Greedily consume decimal digits, accumulating their value. -/
def parseDigits : PyStr → Nat → Nat × PyStr
  | [], acc => (acc, [])
  | c :: rest, acc =>
    if 48 ≤ c.toNat ∧ c.toNat ≤ 57 then parseDigits rest (10 * acc + (c.toNat - 48))
    else (acc, c :: rest)

/-- After the integer part of Python's `NUMBER_RE` has matched, a following
`.`, `e` or `E` would extend the match to a float, which is outside the model
(rejected). -/
def floatGuard (n : Nat) (r : PyStr) : Option (Nat × PyStr) :=
  match r with
  | [] => some (n, [])
  | c :: _ => if c = '.' ∨ c = 'e' ∨ c = 'E' then none else some (n, r)

/-- The unsigned integer part of `NUMBER_RE`: `0`, or a nonzero digit followed
by any digits (so no leading zeros). -/
def parseUIntPart : PyStr → Option (Nat × PyStr)
  | [] => none
  | c :: rest =>
    if c = '0' then floatGuard 0 rest
    else if 49 ≤ c.toNat ∧ c.toNat ≤ 57 then
      let (n, r) := parseDigits rest (c.toNat - 48)
      floatGuard n r
    else none

/-- Model of the number branch of the scanner: `-?(0|[1-9][0-9]*)`, restricted
to integers (see `floatGuard`). -/
def parseNumber (s : PyStr) : Option (Int × PyStr) :=
  match s with
  | [] => none
  | c :: rest =>
    if c = '-' then (parseUIntPart rest).map fun (n, r) => (-(n : Int), r)
    else (parseUIntPart (c :: rest)).map fun (n, r) => ((n : Int), r)

/-- Rebuild a parsed member list the way `dict(pairs)` does: a repeated key
keeps its first position and takes its last value. -/
def assocUpsert (k : PyStr) (v : JsonValue) :
    List (PyStr × JsonValue) → List (PyStr × JsonValue)
  | [] => [(k, v)]
  | (k2, v2) :: rest =>
    if k2 = k then (k2, v) :: rest else (k2, v2) :: assocUpsert k v rest

/-- Model of `dict(pairs)` applied to the parsed member list. -/
def dedupKeys (kvs : List (PyStr × JsonValue)) : List (PyStr × JsonValue) :=
  kvs.foldl (fun acc p => assocUpsert p.1 p.2 acc) []

mutual

/-- Model of the pure-Python `_scan_once`: dispatch on the first character to
a string, object, array, literal or number parse. -/
def parseValue : Nat → PyStr → Option (JsonValue × PyStr)
  | 0, _ => none
  | _ + 1, [] => none
  | fuel + 1, c :: rest =>
    if c = '"' then
      (parseStringBody fuel rest).map fun (s, r) => (JsonValue.str s, r)
    else if c = '\x7b' then
      match skipWs rest with
      | [] => none
      | d :: r2 =>
        if d = '\x7d' then some (JsonValue.obj [], r2)
        else (parseMembers fuel (d :: r2)).map fun (kvs, r3) => (JsonValue.obj (dedupKeys kvs), r3)
    else if c = '[' then
      match skipWs rest with
      | [] => none
      | d :: r2 =>
        if d = ']' then some (JsonValue.arr [], r2)
        else (parseElems fuel (d :: r2)).map fun (xs, r3) => (JsonValue.arr xs, r3)
    else if (pyOfString "null").isPrefixOf (c :: rest) then
      some (JsonValue.null, (c :: rest).drop 4)
    else if (pyOfString "true").isPrefixOf (c :: rest) then
      some (JsonValue.bool true, (c :: rest).drop 4)
    else if (pyOfString "false").isPrefixOf (c :: rest) then
      some (JsonValue.bool false, (c :: rest).drop 5)
    else
      (parseNumber (c :: rest)).map fun (n, r) => (JsonValue.int n, r)

/-- Model of `JSONArray` after `[` and leading whitespace, in the nonempty
case: values separated by `,`, terminated by `]`. -/
def parseElems : Nat → PyStr → Option (List JsonValue × PyStr)
  | 0, _ => none
  | fuel + 1, s =>
    match parseValue fuel s with
    | none => none
    | some (v, r) =>
      match skipWs r with
      | [] => none
      | c :: r2 =>
        if c = ',' then (parseElems fuel (skipWs r2)).map fun (xs, r3) => (v :: xs, r3)
        else if c = ']' then some ([v], r2)
        else none

/-- Model of `JSONObject` after the opening brace and leading whitespace, in
the nonempty case: quoted keys, `:`, values, separated by `,`, terminated by
the closing brace. -/
def parseMembers : Nat → PyStr → Option (List (PyStr × JsonValue) × PyStr)
  | 0, _ => none
  | fuel + 1, s =>
    match s with
    | [] => none
    | c0 :: r0 =>
      if c0 = '"' then
        match parseStringBody fuel r0 with
        | none => none
        | some (k, r1) =>
          match skipWs r1 with
          | [] => none
          | c1 :: r2 =>
            if c1 = ':' then
              match parseValue fuel (skipWs r2) with
              | none => none
              | some (v, r3) =>
                match skipWs r3 with
                | [] => none
                | c2 :: r4 =>
                  if c2 = ',' then
                    match skipWs r4 with
                    | [] => none
                    | c3 :: r5 =>
                      if c3 = '"' then
                        (parseMembers fuel (c3 :: r5)).map fun (kvs, r6) => ((k, v) :: kvs, r6)
                      else none
                  else if c2 = '\x7d' then some ([(k, v)], r4)
                  else none
            else none
      else none

end

/-- Embedding of `json.loads`: skip leading whitespace, scan one value, then
require only trailing whitespace.  `none` models a raised
`json.JSONDecodeError`. -/
def json_loads (s : PyStr) : Option JsonValue :=
  match parseValue (s.length + 1) (skipWs s) with
  | some (v, rest) => if skipWs rest = [] then some v else none
  | none => none

/-- Embedding of `json.dumps(v, ensure_ascii=False)`. -/
def json_dumps (v : JsonValue) : PyStr := printValue v

/-! ## Semantic serialization (`semantics.py`) -/

/-- A knowledge triple `(subject, predicate, object)`. -/
abbrev Triple := PyStr × PyStr × PyStr

/-- Embedding of `serialize_profile`: `json.dumps(profile, ensure_ascii=False)`
encoded to UTF-8. -/
def serialize_profile (profile : JsonValue) : Bytes := json_dumps profile

/-- Embedding of `parse_profile`: `json.loads` of the decoded payload; `none`
models a raised `json.JSONDecodeError`. -/
def parse_profile (raw : Bytes) : Option JsonValue := json_loads raw

/-- Embedding of `serialize_triples`:
`"\n".join(json.dumps([s, p, o], ensure_ascii=False) for ...)`. -/
def serialize_triples (triples : List Triple) : Bytes :=
  joinLines (triples.map fun t => json_dumps (.arr [.str t.1, .str t.2.1, .str t.2.2]))

/-- The fate of one line of a triples payload inside the `parse_triples` loop:
`none` models a raised `JSONDecodeError`, `some none` a silently skipped line
(blank, non-list JSON, or a list with fewer than 3 elements), `some (some t)`
a parsed triple built with `str()` coercion of the first three elements. -/
def lineRes (l : PyStr) : Option (Option Triple) :=
  let l2 := pyStrip l
  if l2 = [] then some none
  else
    match json_loads l2 with
    | none => none
    | some (.arr xs) =>
      if 3 ≤ xs.length then
        some (some (pyStrOf (xs.getD 0 .null), pyStrOf (xs.getD 1 .null), pyStrOf (xs.getD 2 .null)))
      else some none
    | some _ => some none

/-- The `parse_triples` loop over the split lines. -/
def parseTriplesLines : List PyStr → Option (List Triple)
  | [] => some []
  | l :: ls =>
    match lineRes l with
    | none => none
    | some none => parseTriplesLines ls
    | some (some t) => (parseTriplesLines ls).map (t :: ·)

/-- Embedding of `parse_triples`: strip the payload, split on newlines, and run
the per-line loop; `none` models a raised `json.JSONDecodeError`. -/
def parse_triples (raw : Bytes) : Option (List Triple) :=
  parseTriplesLines (splitLines (pyStrip raw))

/-- Embedding of `load_user_profile`.  The outer `Option` models an exception
escaping the call; the inner one models the `None` returned for an absent
key. -/
def load_user_profile (backend : InMemoryStore) (user_id : PyStr) :
    Option (Option JsonValue) :=
  match get_object (profile_key user_id) backend with
  | none => some none
  | some data => (parse_profile data).map some

/-- Embedding of `save_user_profile`. -/
def save_user_profile (backend : InMemoryStore) (user_id : PyStr)
    (profile : JsonValue) : InMemoryStore :=
  put_object (profile_key user_id) (serialize_profile profile) backend

/-- Embedding of `load_knowledge_triples`: empty list for an absent key, the
parsed triples otherwise (`none` models an escaping decode error). -/
def load_knowledge_triples (backend : InMemoryStore) (user_id : PyStr) :
    Option (List Triple) :=
  match get_object (knowledge_key user_id) backend with
  | none => some []
  | some data => parse_triples data

/-- Embedding of `save_knowledge_triples`. -/
def save_knowledge_triples (backend : InMemoryStore) (user_id : PyStr)
    (triples : List Triple) : InMemoryStore :=
  put_object (knowledge_key user_id) (serialize_triples triples) backend

/-- Model of the Python substring test `needle in hay`. -/
def isSubstring (needle : PyStr) : PyStr → Bool
  | [] => needle.isEmpty
  | c :: rest => needle.isPrefixOf (c :: rest) || isSubstring needle rest

/-- The match condition of `retrieve_relevant_knowledge`: the lowered trimmed
query occurs in the lowered space-joined concatenation of the three fields. -/
def tripleMatches (q : PyStr) (t : Triple) : Bool :=
  isSubstring (pyLower (pyStrip q)) (pyLower (t.1 ++ ' ' :: t.2.1 ++ ' ' :: t.2.2))

/-- Embedding of `retrieve_relevant_knowledge`: load the triples, then either
the empty-query fallback `triples[:top_k]` or the keyword filter
`matched[:top_k]`.  `top_k` is an arbitrary integer, sliced with Python
semantics. -/
def retrieve_relevant_knowledge (backend : InMemoryStore) (user_id : PyStr)
    (query : PyStr) (top_k : Int) : Option (List Triple) :=
  (load_knowledge_triples backend user_id).map fun triples =>
    if pyStrip query = [] then pySliceTo top_k triples
    else pySliceTo top_k (triples.filter (tripleMatches query))

/-! ## Backend factory (`long_term_storage.py`, lines 326-359) -/

/-- The result of `create_long_term_backend_from_config`: either an
`OssStorage` (with its four constructor arguments) or the in-memory
reference backend. -/
inductive BackendChoice where
  | oss (bucket access_key_id access_key_secret endpoint : PyStr)
  | inMemory
deriving DecidableEq

/-- Model of `str.rstrip("/")`. -/
def pyRstripSlash (s : PyStr) : PyStr := (s.reverse.dropWhile (· = '/')).reverse

/-- Embedding of `_normalize_oss_endpoint`: `None` when empty or blank,
otherwise stripped, trailing slashes removed, and `https://` prefixed when no
`http://` or `https://` scheme is present. -/
def normalize_oss_endpoint (endpoint : PyStr) : Option PyStr :=
  if endpoint = [] ∨ pyStrip endpoint = [] then none
  else
    let ep := pyRstripSlash (pyStrip endpoint)
    if (pyOfString "http://").isPrefixOf ep ∨ (pyOfString "https://").isPrefixOf ep then some ep
    else some (pyOfString "https://" ++ ep)

/-- Configuration fields read by the factory; `none` models both an absent key
and an explicit `None` value (`config.get(...) or ""` conflates them). -/
structure OssConfig where
  oss_endpoint : Option PyStr
  oss_bucket : Option PyStr
  oss_access_key_id : Option PyStr
  oss_access_key_secret : Option PyStr

/-- Embedding of `create_long_term_backend_from_config`. -/
def create_long_term_backend_from_config (config : OssConfig) : BackendChoice :=
  let ep0 := config.oss_endpoint.getD []
  let ep := if ep0 = [] then none else normalize_oss_endpoint ep0
  let bucket := pyStrip (config.oss_bucket.getD [])
  let key_id := pyStrip (config.oss_access_key_id.getD [])
  let key_secret := pyStrip (config.oss_access_key_secret.getD [])
  match ep with
  | some e =>
    if bucket ≠ [] ∧ key_id ≠ [] ∧ key_secret ≠ [] then
      BackendChoice.oss bucket key_id key_secret e
    else BackendChoice.inMemory
  | none => BackendChoice.inMemory

/-! ## Session lifecycle (`models.py`, lines 21-43) -/

/-- The four session states of `SessionStatus`. -/
inductive SessionStatus where
  | active
  | coldArchived
  | deepArchived
  | deleted
deriving DecidableEq

/-- The integer encodings `ACTIVE: 1, COLD_ARCHIVED: 2, DEEP_ARCHIVED: 3,
DELETED: 4` from `models.py`. -/
def statusCode : SessionStatus → Nat
  | .active => 1
  | .coldArchived => 2
  | .deepArchived => 3
  | .deleted => 4

/-- The `status` column default `SessionStatus.ACTIVE` from `models.py`. -/
def sessionInitialStatus : SessionStatus := .active

/-- Modelled from the spec: the hot-window threshold (about 7 days) of the
archival policy.  The scheduler applying the policy is external to this
repository; only the comment `hot 7d / cold 7-180d / deep 180-1095d` in
`models.py` records the thresholds. -/
def hotWindowDays : Nat := 7

/-- Modelled from the spec: the cold-window threshold (about 180 days) of the
archival policy applied by the external scheduler. -/
def coldWindowDays : Nat := 180

/-- Modelled from the spec: the forward-only transitions of the lifecycle
state machine (`Active → ColdArchived → DeepArchived`, any state `→ Deleted`);
the scheduler driving them is external to this repository. -/
inductive StatusTransition : SessionStatus → SessionStatus → Prop where
  | activeToCold : StatusTransition .active .coldArchived
  | coldToDeep : StatusTransition .coldArchived .deepArchived
  | toDeleted (s : SessionStatus) : s ≠ .deleted → StatusTransition s .deleted

/-- Modelled from the spec: a session is eligible for the cold-archival
transition when its age `now - updated_at` exceeds the hot window. -/
def eligibleForColdArchival (ageDays : Nat) : Prop := hotWindowDays < ageDays

/-- Modelled from the spec: a session is eligible for the deep-archival
transition when its age exceeds the cold window. -/
def eligibleForDeepArchival (ageDays : Nat) : Prop := coldWindowDays < ageDays

/-! ## Store lemmas -/

theorem get_put_self (k : PyStr) (v : Bytes) (st : InMemoryStore) :
    get_object k (put_object k v st) = some v := by
  induction st with
  | nil => simp [put_object, get_object]
  | cons hd tl ih =>
    obtain ⟨k2, v2⟩ := hd
    by_cases h : k2 = k
    · simp [put_object, get_object, h]
    · simp [put_object, get_object, h, ih]

theorem get_put_ne (k k2 : PyStr) (v : Bytes) (st : InMemoryStore) (h : k2 ≠ k) :
    get_object k2 (put_object k v st) = get_object k2 st := by
  have hkk2 : ¬ k = k2 := fun hh => h hh.symm
  induction st with
  | nil => simp [put_object, get_object, hkk2]
  | cons hd tl ih =>
    obtain ⟨k3, v3⟩ := hd
    by_cases h3 : k3 = k
    · subst h3
      simp [put_object, get_object, hkk2]
    · simp only [put_object, if_neg h3, get_object]
      by_cases h2 : k3 = k2
      · simp [h2]
      · simp [h2, ih]

theorem get_of_not_mem (k : PyStr) (st : InMemoryStore)
    (h : k ∉ st.map Prod.fst) : get_object k st = none := by
  induction st with
  | nil => rfl
  | cons hd tl ih =>
    obtain ⟨k2, v2⟩ := hd
    simp only [List.map_cons, List.mem_cons, not_or] at h
    have h1 : ¬ k2 = k := fun hh => h.1 hh.symm
    simp [get_object, h1, ih h.2]

theorem delete_of_not_mem (k : PyStr) (st : InMemoryStore)
    (h : k ∉ st.map Prod.fst) : delete_object k st = st := by
  induction st with
  | nil => rfl
  | cons hd tl ih =>
    obtain ⟨k2, v2⟩ := hd
    simp only [List.map_cons, List.mem_cons, not_or] at h
    have h1 : ¬ k2 = k := fun hh => h.1 hh.symm
    simp [delete_object, h1, ih h.2]

theorem get_delete_self (k : PyStr) (st : InMemoryStore) (h : keysNodup st) :
    get_object k (delete_object k st) = none := by
  induction st with
  | nil => rfl
  | cons hd tl ih =>
    obtain ⟨k2, v2⟩ := hd
    simp only [keysNodup, List.map_cons, List.nodup_cons] at h
    by_cases h2 : k2 = k
    · subst h2
      simp only [delete_object, if_pos rfl]
      exact get_of_not_mem k2 tl h.1
    · simp [delete_object, get_object, h2, ih h.2]

theorem mem_list_prefix_keys (k p : PyStr) (st : InMemoryStore) :
    k ∈ list_prefix_keys p st ↔ k ∈ st.map Prod.fst ∧ p.isPrefixOf k := by
  simp [list_prefix_keys, List.mem_filter]

/-! ## Strip and split-lines lemmas -/

/-- The last element of a list, with a default for the empty list (a local
recursive definition with definitional unfolding). -/
def lastD {α : Type} (d : α) : List α → α
  | [] => d
  | a :: as => lastD a as

theorem lastD_nil {α : Type} (d : α) : lastD d [] = d := rfl

theorem lastD_cons {α : Type} (d a : α) (as : List α) :
    lastD d (a :: as) = lastD a as := rfl

theorem dropLast_append_lastD {α : Type} (l : List α) (hl : l ≠ []) (d : α) :
    l.dropLast ++ [lastD d l] = l := by
  induction l generalizing d with
  | nil => exact absurd rfl hl
  | cons a as ih =>
    cases as with
    | nil => rfl
    | cons b bs =>
      have h2 := ih (by simp) a
      rw [lastD_cons] at h2
      simp only [List.dropLast_cons₂, lastD_cons, List.cons_append]
      rw [h2]

theorem pyStripLeft_cons_space (c : Char) (s : PyStr) (h : isPySpace c = true) :
    pyStripLeft (c :: s) = pyStripLeft s := by
  simp [pyStripLeft, List.dropWhile_cons, h]

theorem pyStripLeft_cons_nospace (c : Char) (s : PyStr) (h : isPySpace c = false) :
    pyStripLeft (c :: s) = c :: s := by
  simp [pyStripLeft, List.dropWhile_cons, h]

theorem pyStripRight_append_space (c : Char) (s : PyStr) (h : isPySpace c = true) :
    pyStripRight (s ++ [c]) = pyStripRight s := by
  simp [pyStripRight, List.reverse_append, List.dropWhile_cons, h]

theorem pyStripRight_append_nospace (c : Char) (s : PyStr) (h : isPySpace c = false) :
    pyStripRight (s ++ [c]) = s ++ [c] := by
  simp [pyStripRight, List.reverse_append, List.dropWhile_cons, h]

theorem pyStrip_append_space (c : Char) (s : PyStr) (h : isPySpace c = true) :
    pyStrip (s ++ [c]) = pyStrip s := by
  simp [pyStrip, pyStripRight_append_space c s h]

theorem pyStripRight_cons (c : Char) (s : PyStr) :
    pyStripRight (c :: s) =
      if pyStripRight s = [] then (if isPySpace c then [] else [c])
      else c :: pyStripRight s := by
  simp only [pyStripRight, List.reverse_cons]
  by_cases hall : s.reverse.dropWhile isPySpace = []
  · rw [List.dropWhile_append]
    simp only [hall, List.isEmpty_nil, if_true, List.reverse_eq_nil_iff]
    by_cases hc : isPySpace c <;> simp [List.dropWhile_cons, hc]
  · rw [List.dropWhile_append]
    simp only [hall, List.reverse_eq_nil_iff]
    have : (s.reverse.dropWhile isPySpace).isEmpty = false := by
      cases hd : s.reverse.dropWhile isPySpace with
      | nil => exact absurd hd hall
      | cons x xs => rfl
    simp [this, hall]

theorem pyStrip_cons_space (c : Char) (s : PyStr) (h : isPySpace c = true) :
    pyStrip (c :: s) = pyStrip s := by
  unfold pyStrip
  rw [pyStripRight_cons]
  by_cases hall : pyStripRight s = []
  · simp [hall, h, pyStripLeft]
  · simp only [hall, if_neg (by exact hall)]
    simp [pyStripLeft_cons_space c _ h, hall]

theorem splitLines_ne_nil (s : PyStr) : splitLines s ≠ [] := by
  cases s with
  | nil => simp [splitLines]
  | cons c rest =>
    unfold splitLines
    cases h : splitLines rest with
    | nil => simp
    | cons a as => by_cases hc : c = '\n' <;> simp [hc]

theorem splitLines_cons_of_eq (c : Char) (s : PyStr) (l : PyStr) (ls : List PyStr)
    (h : splitLines s = l :: ls) :
    splitLines (c :: s) = if c = '\n' then [] :: l :: ls else (c :: l) :: ls := by
  unfold splitLines
  rw [h]

theorem splitLines_append_newline (s : PyStr) :
    splitLines (s ++ ['\n']) = splitLines s ++ [[]] := by
  induction s with
  | nil => rfl
  | cons c s ih =>
    obtain ⟨l, ls, h⟩ : ∃ l ls, splitLines s = l :: ls := by
      cases hh : splitLines s with
      | nil => exact absurd hh (splitLines_ne_nil s)
      | cons a as => exact ⟨a, as, rfl⟩
    rw [List.cons_append, splitLines_cons_of_eq c (s ++ ['\n']) _ _ (by rw [ih, h]; rfl),
      splitLines_cons_of_eq c s l ls h]
    by_cases hc : c = '\n' <;> simp [hc]

theorem splitLines_append_other (c : Char) (s : PyStr) (h : ¬ c = '\n') :
    splitLines (s ++ [c]) =
      (splitLines s).dropLast ++ [lastD [] (splitLines s) ++ [c]] := by
  induction s with
  | nil => simp [splitLines, h, lastD]
  | cons d s ih =>
    obtain ⟨l, ls, hs⟩ : ∃ l ls, splitLines s = l :: ls := by
      cases hh : splitLines s with
      | nil => exact absurd hh (splitLines_ne_nil s)
      | cons a as => exact ⟨a, as, rfl⟩
    obtain ⟨l2, ls2, hs2⟩ : ∃ l2 ls2, splitLines (s ++ [c]) = l2 :: ls2 := by
      cases hh : splitLines (s ++ [c]) with
      | nil => exact absurd hh (splitLines_ne_nil _)
      | cons a as => exact ⟨a, as, rfl⟩
    rw [List.cons_append, splitLines_cons_of_eq d (s ++ [c]) _ _ hs2,
      splitLines_cons_of_eq d s l ls hs]
    rw [hs, hs2] at ih
    by_cases hd : d = '\n'
    · simp only [if_pos hd, List.dropLast_cons₂, lastD_cons, List.cons_append] at ih ⊢
      rw [ih]
    · simp only [if_neg hd]
      cases ls with
      | nil =>
        simp only [List.dropLast_single, lastD_cons, lastD_nil, List.nil_append] at ih
        obtain ⟨h1, h2⟩ := List.cons_eq_cons.mp ih
        subst h1
        subst h2
        simp [lastD_cons, lastD_nil]
      | cons l3 ls3 =>
        simp only [List.dropLast_cons₂, lastD_cons, List.cons_append] at ih ⊢
        obtain ⟨h1, h2⟩ := List.cons_eq_cons.mp ih
        subst h1
        subst h2
        rfl

/-! ## Per-line lemmas for `parse_triples` -/

theorem lineRes_nil : lineRes [] = some none := rfl

theorem lineRes_of_strip_nil (l : PyStr) (h : pyStrip l = []) : lineRes l = some none := by
  unfold lineRes
  simp [h]

theorem lineRes_cons_space (c : Char) (l : PyStr) (h : isPySpace c = true) :
    lineRes (c :: l) = lineRes l := by
  unfold lineRes
  rw [pyStrip_cons_space c l h]

theorem lineRes_append_space (c : Char) (l : PyStr) (h : isPySpace c = true) :
    lineRes (l ++ [c]) = lineRes l := by
  unfold lineRes
  rw [pyStrip_append_space c l h]

theorem parseTriplesLines_cons_skip (l : PyStr) (ls : List PyStr)
    (h : lineRes l = some none) :
    parseTriplesLines (l :: ls) = parseTriplesLines ls := by
  simp only [parseTriplesLines, h]

theorem parseTriplesLines_congr_head (l1 l2 : PyStr) (ls : List PyStr)
    (h : lineRes l1 = lineRes l2) :
    parseTriplesLines (l1 :: ls) = parseTriplesLines (l2 :: ls) := by
  unfold parseTriplesLines
  rw [h]

theorem parseTriplesLines_append_skip (l : PyStr) (ls : List PyStr)
    (h : lineRes l = some none) :
    parseTriplesLines (ls ++ [l]) = parseTriplesLines ls := by
  induction ls with
  | nil =>
    rw [List.nil_append]
    exact parseTriplesLines_cons_skip l [] h
  | cons l2 ls2 ih =>
    rw [List.cons_append]
    unfold parseTriplesLines
    rw [ih]

theorem parseTriplesLines_append_congr (l1 l2 : PyStr) (ls : List PyStr)
    (h : lineRes l1 = lineRes l2) :
    parseTriplesLines (ls ++ [l1]) = parseTriplesLines (ls ++ [l2]) := by
  induction ls with
  | nil =>
    simp only [List.nil_append]
    exact parseTriplesLines_congr_head l1 l2 [] h
  | cons l3 ls3 ih =>
    rw [List.cons_append, List.cons_append]
    unfold parseTriplesLines
    rw [ih]

theorem parseTriplesLines_stripLeft (s : PyStr) :
    parseTriplesLines (splitLines (pyStripLeft s)) = parseTriplesLines (splitLines s) := by
  induction s with
  | nil => rfl
  | cons c s ih =>
    cases hws : isPySpace c with
    | false => rw [pyStripLeft_cons_nospace c s hws]
    | true =>
      rw [pyStripLeft_cons_space c s hws, ih]
      obtain ⟨l, ls, hs⟩ : ∃ l ls, splitLines s = l :: ls := by
        cases hh : splitLines s with
        | nil => exact absurd hh (splitLines_ne_nil s)
        | cons a as => exact ⟨a, as, rfl⟩
      rw [splitLines_cons_of_eq c s l ls hs, hs]
      by_cases hc : c = '\n'
      · rw [if_pos hc, parseTriplesLines_cons_skip [] (l :: ls) lineRes_nil]
      · rw [if_neg hc,
          parseTriplesLines_congr_head (c :: l) l ls (lineRes_cons_space c l hws)]

theorem parseTriplesLines_stripRight (s : PyStr) :
    parseTriplesLines (splitLines (pyStripRight s)) = parseTriplesLines (splitLines s) := by
  induction s using List.reverseRecOn with
  | nil => rfl
  | append_singleton s c ih =>
    cases hws : isPySpace c with
    | false => rw [pyStripRight_append_nospace c s hws]
    | true =>
      rw [pyStripRight_append_space c s hws, ih]
      by_cases hc : c = '\n'
      · rw [hc, splitLines_append_newline]
        exact (parseTriplesLines_append_skip [] (splitLines s) lineRes_nil).symm
      · rw [splitLines_append_other c s hc]
        conv_lhs => rw [← dropLast_append_lastD (splitLines s) (splitLines_ne_nil s) []]
        exact (parseTriplesLines_append_congr _ _ _
          (lineRes_append_space c (lastD [] (splitLines s)) hws)).symm

theorem parse_triples_eq_lines (raw : Bytes) :
    parse_triples raw = parseTriplesLines (splitLines raw) := by
  unfold parse_triples pyStrip
  rw [parseTriplesLines_stripLeft (pyStripRight raw), parseTriplesLines_stripRight raw]

theorem splitLines_no_newline (l : PyStr) (h : '\n' ∉ l) : splitLines l = [l] := by
  induction l with
  | nil => rfl
  | cons c t ih =>
    simp only [List.mem_cons, not_or] at h
    rw [splitLines_cons_of_eq c t t [] (ih h.2), if_neg (fun hh => h.1 hh.symm)]

theorem splitLines_append_newline_cons (l t : PyStr) (h : '\n' ∉ l) :
    splitLines (l ++ '\n' :: t) = l :: splitLines t := by
  induction l with
  | nil =>
    obtain ⟨a, as, ht⟩ : ∃ a as, splitLines t = a :: as := by
      cases hh : splitLines t with
      | nil => exact absurd hh (splitLines_ne_nil t)
      | cons a as => exact ⟨a, as, rfl⟩
    rw [List.nil_append, splitLines_cons_of_eq '\n' t a as ht, if_pos rfl, ht]
  | cons c l2 ih =>
    simp only [List.mem_cons, not_or] at h
    obtain ⟨a, as, ht⟩ : ∃ a as, splitLines (l2 ++ '\n' :: t) = a :: as := by
      cases hh : splitLines (l2 ++ '\n' :: t) with
      | nil => exact absurd hh (splitLines_ne_nil _)
      | cons a as => exact ⟨a, as, rfl⟩
    rw [List.cons_append, splitLines_cons_of_eq c (l2 ++ '\n' :: t) a as ht,
      if_neg (fun hh => h.1 hh.symm)]
    rw [ih h.2] at ht
    obtain ⟨h1, h2⟩ := List.cons_eq_cons.mp ht
    rw [← h1, ← h2]

theorem splitLines_joinLines (ls : List PyStr) (hne : ls ≠ [])
    (h : ∀ l ∈ ls, '\n' ∉ l) : splitLines (joinLines ls) = ls := by
  induction ls with
  | nil => exact absurd rfl hne
  | cons l ls2 ih =>
    cases ls2 with
    | nil =>
      show splitLines (joinLines [l]) = [l]
      exact splitLines_no_newline l (h l (by simp))
    | cons l2 ls3 =>
      show splitLines (l ++ '\n' :: joinLines (l2 :: ls3)) = l :: l2 :: ls3
      rw [splitLines_append_newline_cons l _ (h l (by simp)),
        ih (by simp) (fun x hx => h x (List.mem_cons_of_mem l hx))]

theorem parseTriplesLines_filter_blank (ls : List PyStr) :
    parseTriplesLines (ls.filter fun l => !(pyStrip l).isEmpty) = parseTriplesLines ls := by
  induction ls with
  | nil => rfl
  | cons l ls2 ih =>
    cases hb : (pyStrip l).isEmpty with
    | true =>
      have hnil : pyStrip l = [] := by
        cases hh : pyStrip l with
        | nil => rfl
        | cons a as => rw [hh] at hb; exact absurd hb (by simp)
      rw [List.filter_cons_of_neg (by simp [hb]), ih,
        parseTriplesLines_cons_skip l ls2 (lineRes_of_strip_nil l hnil)]
    | false =>
      rw [List.filter_cons_of_pos (by simp [hb])]
      unfold parseTriplesLines
      rw [ih]

/-! ## Round-trip machinery: measures, well-formedness, head shapes -/

mutual

/-- Fuel needed by `parseValue` to parse `printValue v` (proved below). -/
def measureValue : JsonValue → Nat
  | .null => 1
  | .bool _ => 1
  | .int _ => 1
  | .str s => s.length + 2
  | .arr xs => 1 + measureElems xs
  | .obj kvs => 1 + measureMembers kvs

/-- Fuel needed by `parseElems`. -/
def measureElems : List JsonValue → Nat
  | [] => 0
  | x :: xs => 1 + measureValue x + measureElems xs

/-- Fuel needed by `parseMembers`. -/
def measureMembers : List (PyStr × JsonValue) → Nat
  | [] => 0
  | (k, v) :: kvs => k.length + 2 + measureValue v + measureMembers kvs

end

/-- Does the key `k` not occur among the keys of `kvs`? -/
def keyFresh (k : PyStr) : List (PyStr × JsonValue) → Bool
  | [] => true
  | (k2, _) :: rest => !(k2 = k : Bool) && keyFresh k rest

mutual

/-- Well-formedness of a JSON value as a Python object: every object has
pairwise-distinct keys (a Python `dict` cannot hold duplicates). -/
def wfValue : JsonValue → Bool
  | .null => true
  | .bool _ => true
  | .int _ => true
  | .str _ => true
  | .arr xs => wfElems xs
  | .obj kvs => wfMembers kvs

/-- Well-formedness of array elements. -/
def wfElems : List JsonValue → Bool
  | [] => true
  | x :: xs => wfValue x && wfElems xs

/-- Well-formedness of object members: the head key is fresh and all values
are well-formed. -/
def wfMembers : List (PyStr × JsonValue) → Bool
  | [] => true
  | (k, v) :: kvs => keyFresh k kvs && wfValue v && wfMembers kvs

end

/-- After an integer token Python's `NUMBER_RE` must not be extendable: the
continuation may not begin with a digit, `.`, `e` or `E`.  Every continuation
arising while parsing printed JSON (`,`, `]`, the closing brace, end of input)
satisfies this. -/
def numSafe : PyStr → Prop
  | [] => True
  | c :: _ => ¬(48 ≤ c.toNat ∧ c.toNat ≤ 57) ∧ c ≠ '.' ∧ c ≠ 'e' ∧ c ≠ 'E'

theorem skipWs_cons_not_ws (c : Char) (s : PyStr) (h : isJsonWs c = false) :
    skipWs (c :: s) = c :: s := by
  simp [skipWs, List.dropWhile_cons, h]

theorem skipWs_cons_ws (c : Char) (s : PyStr) (h : isJsonWs c = true) :
    skipWs (c :: s) = skipWs s := by
  simp [skipWs, List.dropWhile_cons, h]

theorem escapeChar_length_pos (c : Char) : 1 ≤ (escapeChar c).length := by
  unfold escapeChar
  split <;> try simp
  split <;> try simp
  split <;> try simp
  split <;> try simp
  split <;> try simp
  split <;> try simp
  split <;> try simp
  split <;> simp

theorem length_le_escapeString (s : PyStr) : s.length ≤ (escapeString s).length := by
  induction s with
  | nil => simp [escapeString]
  | cons c s ih =>
    show (c :: s).length ≤ (escapeChar c ++ escapeString s).length
    rw [List.length_append, List.length_cons]
    have := escapeChar_length_pos c
    omega

theorem charToNat_ofNat (n : Nat) (h : n < 55296) : (Char.ofNat n).toNat = n := by
  have hv : Nat.isValidChar n := Or.inl h
  simp only [Char.ofNat, dif_pos hv, Char.ofNatAux, Char.toNat]
  rfl

theorem newline_ne_hexDigit (n : Nat) (hn : n < 16) : '\n' ≠ hexDigit n := by
  intro h
  have h2 := congrArg Char.toNat h
  have h3 : Char.toNat '\n' = 10 := rfl
  unfold hexDigit at h2
  by_cases hlt : n < 10
  · rw [if_pos hlt, charToNat_ofNat (48 + n) (by omega)] at h2
    omega
  · rw [if_neg hlt, charToNat_ofNat (87 + n) (by omega)] at h2
    omega

theorem newline_not_mem_escapeChar (c : Char) : '\n' ∉ escapeChar c := by
  unfold escapeChar
  split
  · simp
  · split
    · simp
    · split
      · simp
      · split
        · simp
        · split
          · simp
          · split
            · simp
            · split
              · simp
              · split
                · rename_i h1 h2 h3 h4 h5 h6 h7 h8
                  intro hmem
                  simp only [List.mem_cons, List.not_mem_nil, or_false] at hmem
                  rcases hmem with h | h | h | h | h | h
                  · exact absurd h.symm (by decide)
                  · exact absurd h.symm (by decide)
                  · exact absurd h.symm (by decide)
                  · exact absurd h.symm (by decide)
                  · exact newline_ne_hexDigit _ (by omega) h
                  · exact newline_ne_hexDigit _ (by omega) h
                · rename_i h1 h2 h3 h4 h5 h6 h7 h8
                  intro hmem
                  simp only [List.mem_cons, List.not_mem_nil, or_false] at hmem
                  have h9 : c.toNat = 10 := by rw [← hmem]; rfl
                  omega

theorem newline_not_mem_escapeString (s : PyStr) : '\n' ∉ escapeString s := by
  induction s with
  | nil => simp [escapeString]
  | cons c s ih =>
    show '\n' ∉ escapeChar c ++ escapeString s
    rw [List.mem_append]
    rintro (h | h)
    · exact newline_not_mem_escapeChar c h
    · exact ih h

theorem hexVal_hexDigit (n : Nat) (h : n < 16) : hexVal (hexDigit n) = some n := by
  unfold hexDigit hexVal
  by_cases hlt : n < 10
  · rw [if_pos hlt, charToNat_ofNat (48 + n) (by omega), if_pos (by omega)]
    simp
  · rw [if_neg hlt, charToNat_ofNat (87 + n) (by omega), if_neg (by omega),
      if_pos (by omega)]
    simp [Nat.add_sub_cancel_left]

theorem parseStringBody_rt (s : PyStr) : ∀ (fuel : Nat) (rest : PyStr),
    s.length + 1 ≤ fuel →
    parseStringBody fuel (escapeString s ++ '"' :: rest) = some (s, rest) := by
  induction s with
  | nil =>
    intro fuel rest hf
    cases fuel with
    | zero => omega
    | succ f => simp [escapeString, parseStringBody]
  | cons c s ih =>
    intro fuel rest hf
    cases fuel with
    | zero => simp at hf
    | succ f =>
      have hf2 : s.length + 1 ≤ f := by
        simp only [List.length_cons] at hf
        omega
      show parseStringBody (f + 1) ((escapeChar c ++ escapeString s) ++ '"' :: rest) =
        some (c :: s, rest)
      rw [List.append_assoc]
      have hih := ih f rest hf2
      by_cases h1 : c = '"'
      · subst h1
        rw [show escapeChar '"' = ['\\', '"'] from rfl]
        simp [parseStringBody, escapeCharInv, hih]
      · by_cases h2 : c = '\\'
        · subst h2
          rw [show escapeChar '\\' = ['\\', '\\'] from rfl]
          simp [parseStringBody, escapeCharInv, hih]
        · by_cases h3 : c = Char.ofNat 8
          · subst h3
            rw [show escapeChar (Char.ofNat 8) = ['\\', 'b'] from rfl]
            simp [parseStringBody, escapeCharInv, hih]
          · by_cases h4 : c = Char.ofNat 12
            · subst h4
              rw [show escapeChar (Char.ofNat 12) = ['\\', 'f'] from rfl]
              simp [parseStringBody, escapeCharInv, hih]
            · by_cases h5 : c = '\n'
              · subst h5
                rw [show escapeChar '\n' = ['\\', 'n'] from rfl]
                simp [parseStringBody, escapeCharInv, hih]
              · by_cases h6 : c = '\r'
                · subst h6
                  rw [show escapeChar '\r' = ['\\', 'r'] from rfl]
                  simp [parseStringBody, escapeCharInv, hih]
                · by_cases h7 : c = '\t'
                  · subst h7
                    rw [show escapeChar '\t' = ['\\', 't'] from rfl]
                    simp [parseStringBody, escapeCharInv, hih]
                  · by_cases h8 : c.toNat < 32
                    · have hdiv := hexVal_hexDigit (c.toNat / 16) (by omega)
                      have hmod16 := hexVal_hexDigit (c.toNat % 16) (by omega)
                      have hzero : hexVal '0' = some 0 := rfl
                      have hmod : c.toNat / 16 * 16 + c.toNat % 16 = c.toNat := by omega
                      have hs1 : ¬(55296 ≤ c.toNat ∧ c.toNat ≤ 56319) := by omega
                      have hs2 : ¬(56320 ≤ c.toNat ∧ c.toNat ≤ 57343) := by omega
                      rw [show escapeChar c =
                          ['\\', 'u', '0', '0', hexDigit (c.toNat / 16), hexDigit (c.toNat % 16)]
                        from by
                          simp only [escapeChar, if_neg h1, if_neg h2, if_neg h3, if_neg h4,
                            if_neg h5, if_neg h6, if_neg h7, if_pos h8]]
                      simp [parseStringBody, parseHex4, hdiv, hmod16, hzero, hmod, hs1, hs2,
                        hih, Char.ofNat_toNat]
                    · rw [show escapeChar c = [c] from by
                        simp only [escapeChar, if_neg h1, if_neg h2, if_neg h3, if_neg h4,
                          if_neg h5, if_neg h6, if_neg h7, if_neg h8]]
                      simp [parseStringBody, h1, h2, h8, hih]

/-! ## Number round-trip lemmas -/

theorem natReprAux_irrel (f : Nat) : ∀ (g n : Nat), n < f → n < g →
    natReprAux f n = natReprAux g n := by
  induction f with
  | zero => intro g n h; omega
  | succ f ih =>
    intro g n hf hg
    cases g with
    | zero => omega
    | succ g =>
      show natReprAux (f + 1) n = natReprAux (g + 1) n
      unfold natReprAux
      by_cases h10 : n < 10
      · simp [h10]
      · simp only [if_neg h10]
        have hdiv : n / 10 < n := Nat.div_lt_self (by omega) (by omega)
        rw [ih g (n / 10) (by omega) (by omega)]

theorem natRepr_eq (n : Nat) :
    natRepr n = if n < 10 then [digitChar n] else natRepr (n / 10) ++ [digitChar (n % 10)] := by
  unfold natRepr
  by_cases h10 : n < 10
  · unfold natReprAux
    simp [h10]
  · have hdiv : n / 10 < n := Nat.div_lt_self (by omega) (by omega)
    conv_lhs => rw [natReprAux]
    simp only [if_neg h10]
    rw [natReprAux_irrel n (n / 10 + 1) (n / 10) (by omega) (by omega)]

/-- The head of the input is not a decimal digit. -/
def headNotDigit : PyStr → Prop
  | [] => True
  | c :: _ => ¬(48 ≤ c.toNat ∧ c.toNat ≤ 57)

theorem numSafe_headNotDigit (s : PyStr) (h : numSafe s) : headNotDigit s := by
  cases s with
  | nil => trivial
  | cons c r => exact h.1

theorem parseDigits_no_digit (s : PyStr) (acc : Nat) (h : headNotDigit s) :
    parseDigits s acc = (acc, s) := by
  cases s with
  | nil => rfl
  | cons c r =>
    unfold parseDigits
    rw [if_neg h]

theorem parseDigits_digit_step (c : Char) (r : PyStr) (acc : Nat)
    (h : 48 ≤ c.toNat ∧ c.toNat ≤ 57) :
    parseDigits (c :: r) acc = parseDigits r (10 * acc + (c.toNat - 48)) := by
  conv_lhs => rw [parseDigits]
  rw [if_pos h]

theorem toNat_digitChar (n : Nat) (h : n < 10) : (digitChar n).toNat = 48 + n := by
  rw [digitChar, charToNat_ofNat (48 + n) (by omega)]

theorem parseDigits_cont (n : Nat) : ∀ (acc : Nat) (rest : PyStr),
    parseDigits (natRepr n ++ rest) acc =
      parseDigits rest (acc * 10 ^ (natRepr n).length + n) := by
  induction n using Nat.strong_induction_on with
  | _ n ih =>
    intro acc rest
    rw [natRepr_eq n]
    by_cases h10 : n < 10
    · simp only [if_pos h10, List.cons_append, List.nil_append, List.length_cons,
        List.length_nil]
      rw [parseDigits_digit_step (digitChar n) rest acc
        (by rw [toNat_digitChar n h10]; omega)]
      rw [toNat_digitChar n h10]
      have harg : 10 * acc + (48 + n - 48) = acc * 10 ^ (0 + 1) + n := by
        simp [pow_succ]
        omega
      rw [harg]
    · have hdiv : n / 10 < n := Nat.div_lt_self (by omega) (by omega)
      simp only [if_neg h10, List.append_assoc, List.singleton_append]
      rw [ih (n / 10) hdiv acc (digitChar (n % 10) :: rest)]
      rw [parseDigits_digit_step (digitChar (n % 10)) rest _
        (by rw [toNat_digitChar (n % 10) (by omega)]; omega)]
      rw [toNat_digitChar (n % 10) (by omega)]
      have harg : 10 * (acc * 10 ^ (natRepr (n / 10)).length + n / 10) + (48 + n % 10 - 48) =
          acc * 10 ^ (natRepr (n / 10) ++ [digitChar (n % 10)]).length + n := by
        rw [List.length_append]
        have h48 : 48 + n % 10 - 48 = n % 10 := by omega
        rw [h48]
        have hlen : (natRepr (n / 10)).length + [digitChar (n % 10)].length =
            (natRepr (n / 10)).length + 1 := by simp
        rw [hlen]
        calc 10 * (acc * 10 ^ (natRepr (n / 10)).length + n / 10) + n % 10
            = acc * (10 ^ (natRepr (n / 10)).length * 10) + (10 * (n / 10) + n % 10) := by
              ring
          _ = acc * 10 ^ ((natRepr (n / 10)).length + 1) + n := by
              rw [← pow_succ, Nat.div_add_mod]
      rw [harg]

theorem natRepr_head_pos (n : Nat) (h : 1 ≤ n) :
    ∃ d t, natRepr n = d :: t ∧ 49 ≤ d.toNat ∧ d.toNat ≤ 57 := by
  induction n using Nat.strong_induction_on with
  | _ n ih =>
    rw [natRepr_eq n]
    by_cases h10 : n < 10
    · refine ⟨digitChar n, [], by simp [h10], ?_, ?_⟩ <;>
        rw [digitChar, charToNat_ofNat (48 + n) (by omega)] <;> omega
    · have hdiv : n / 10 < n := Nat.div_lt_self (by omega) (by omega)
      obtain ⟨d, t, hd, hd1, hd2⟩ := ih (n / 10) hdiv (by omega)
      exact ⟨d, t ++ [digitChar (n % 10)], by simp [h10, hd], hd1, hd2⟩

theorem floatGuard_numSafe (n : Nat) (r : PyStr) (h : numSafe r) :
    floatGuard n r = some (n, r) := by
  cases r with
  | nil => rfl
  | cons c r2 =>
    obtain ⟨hd, h1, h2, h3⟩ := h
    show (if c = '.' ∨ c = 'e' ∨ c = 'E' then none else some (n, c :: r2)) = some (n, c :: r2)
    rw [if_neg (by tauto)]

theorem parseUIntPart_natRepr (n : Nat) (rest : PyStr) (hs : numSafe rest) :
    parseUIntPart (natRepr n ++ rest) = some (n, rest) := by
  by_cases h0 : n = 0
  · subst h0
    show parseUIntPart ('0' :: rest) = some (0, rest)
    simp only [parseUIntPart, if_pos rfl]
    exact floatGuard_numSafe 0 rest hs
  · obtain ⟨d, t, hd, hd1, hd2⟩ := natRepr_head_pos n (by omega)
    have hdigits : parseDigits (natRepr n ++ rest) 0 = (n, rest) := by
      rw [parseDigits_cont n 0 rest, Nat.zero_mul, Nat.zero_add,
        parseDigits_no_digit rest n (numSafe_headNotDigit rest hs)]
    rw [hd] at hdigits ⊢
    rw [List.cons_append]
    simp only [parseUIntPart]
    have hne0 : ¬ d = '0' := by
      intro hh
      subst hh
      revert hd1
      decide
    rw [if_neg hne0, if_pos (by omega)]
    rw [List.cons_append, parseDigits_digit_step d (t ++ rest) 0 (by omega),
      Nat.mul_zero, Nat.zero_add] at hdigits
    rw [hdigits]
    exact floatGuard_numSafe n rest hs

theorem parseNumber_intRepr (i : Int) (rest : PyStr) (hs : numSafe rest) :
    parseNumber (intRepr i ++ rest) = some (i, rest) := by
  unfold intRepr
  by_cases hneg : i < 0
  · rw [if_pos hneg, List.cons_append]
    simp only [parseNumber, if_pos rfl, parseUIntPart_natRepr i.natAbs rest hs]
    simp
    rw [abs_of_neg hneg, neg_neg]
  · rw [if_neg hneg]
    obtain ⟨d, t, hd, hd1, hd2⟩ : ∃ d t, natRepr i.toNat = d :: t ∧ 48 ≤ d.toNat ∧ d.toNat ≤ 57 := by
      by_cases h0 : i.toNat = 0
      · exact ⟨'0', [], by rw [h0]; rfl, by decide, by decide⟩
      · obtain ⟨d, t, hd, hd1, hd2⟩ := natRepr_head_pos i.toNat (by omega)
        exact ⟨d, t, hd, by omega, hd2⟩
    have hpu := parseUIntPart_natRepr i.toNat rest hs
    rw [hd, List.cons_append] at hpu ⊢
    have hne : ¬ d = '-' := by
      intro hh
      subst hh
      revert hd1
      decide
    simp only [parseNumber, if_neg hne, hpu]
    simp
    omega

/-! ## Head-shape, well-formedness and dedup helpers -/

theorem char_eq_iff_toNat (c d : Char) : c = d ↔ c.toNat = d.toNat := by
  constructor
  · exact fun h => congrArg Char.toNat h
  · intro h
    apply Char.ext
    exact UInt32.toNat.inj h

theorem isJsonWs_eq_false_of (c : Char) (h1 : c.toNat ≠ 32) (h2 : c.toNat ≠ 9)
    (h3 : c.toNat ≠ 10) (h4 : c.toNat ≠ 13) : isJsonWs c = false := by
  unfold isJsonWs
  simp only [Bool.or_eq_false_iff, decide_eq_false_iff_not, char_eq_iff_toNat,
    show (' ' : Char).toNat = 32 from rfl, show ('\t' : Char).toNat = 9 from rfl,
    show ('\n' : Char).toNat = 10 from rfl, show ('\r' : Char).toNat = 13 from rfl]
  omega

theorem char_ne_of_toNat_ne (c d : Char) (h : c.toNat ≠ d.toNat) : c ≠ d :=
  fun hh => h ((char_eq_iff_toNat c d).mp hh)

theorem beq_false_of_toNat_ne (c d : Char) (h : c.toNat ≠ d.toNat) : (c == d) = false := by
  simp only [beq_eq_false_iff_ne, ne_eq]
  exact char_ne_of_toNat_ne c d h

theorem isPrefixOf_cons_false (a : Char) (as : PyStr) (c : Char) (r : PyStr)
    (h : a.toNat ≠ c.toNat) : (a :: as).isPrefixOf (c :: r) = false := by
  show ((a == c) && as.isPrefixOf r) = false
  rw [beq_false_of_toNat_ne a c h, Bool.false_and]

theorem natRepr_head (m : Nat) :
    ∃ d t, natRepr m = d :: t ∧ 48 ≤ d.toNat ∧ d.toNat ≤ 57 := by
  by_cases h0 : m = 0
  · subst h0
    exact ⟨'0', [], rfl, by decide, by decide⟩
  · obtain ⟨d, t, hd, h1, h2⟩ := natRepr_head_pos m (by omega)
    exact ⟨d, t, hd, by omega, h2⟩

theorem intRepr_head (i : Int) :
    ∃ d t, intRepr i = d :: t ∧ (d.toNat = 45 ∨ (48 ≤ d.toNat ∧ d.toNat ≤ 57)) := by
  unfold intRepr
  by_cases hneg : i < 0
  · rw [if_pos hneg]
    exact ⟨'-', natRepr i.natAbs, rfl, Or.inl rfl⟩
  · rw [if_neg hneg]
    obtain ⟨d, t, hd, h1, h2⟩ := natRepr_head i.toNat
    exact ⟨d, t, hd, Or.inr ⟨h1, h2⟩⟩

theorem printValue_head (v : JsonValue) :
    ∃ c t, printValue v = c :: t ∧ isJsonWs c = false ∧ c ≠ ']' ∧ c ≠ '\x7d' := by
  cases v with
  | null => exact ⟨'n', ['u', 'l', 'l'], rfl, by decide, by decide, by decide⟩
  | bool b =>
    cases b with
    | true => exact ⟨'t', ['r', 'u', 'e'], rfl, by decide, by decide, by decide⟩
    | false => exact ⟨'f', ['a', 'l', 's', 'e'], rfl, by decide, by decide, by decide⟩
  | int n =>
    obtain ⟨d, t, hd, hor⟩ := intRepr_head n
    rcases hor with h | ⟨ha, hb⟩ <;>
      exact ⟨d, t, hd,
        isJsonWs_eq_false_of d (by omega) (by omega) (by omega) (by omega),
        char_ne_of_toNat_ne d ']' (by rw [show (']' : Char).toNat = 93 from rfl]; omega),
        char_ne_of_toNat_ne d '\x7d' (by rw [show ('\x7d' : Char).toNat = 125 from rfl]; omega)⟩
  | str s => exact ⟨'"', escapeString s ++ ['"'], rfl, by decide, by decide, by decide⟩
  | arr xs => exact ⟨'[', printElems xs ++ [']'], rfl, by decide, by decide, by decide⟩
  | obj kvs => exact ⟨'\x7b', printMembers kvs ++ ['\x7d'], rfl, by decide, by decide, by decide⟩

theorem printElems_head (x : JsonValue) (xs : List JsonValue) :
    ∃ c t, printElems (x :: xs) = c :: t ∧ isJsonWs c = false ∧ c ≠ ']' ∧ c ≠ '\x7d' := by
  obtain ⟨c, t, hc, h1, h2, h3⟩ := printValue_head x
  cases xs with
  | nil => exact ⟨c, t, by simp [printElems, hc], h1, h2, h3⟩
  | cons y ys =>
    exact ⟨c, t ++ ',' :: ' ' :: printElems (y :: ys), by simp [printElems, hc], h1, h2, h3⟩

theorem printMembers_cons (k : PyStr) (v : JsonValue) (kvs : List (PyStr × JsonValue)) :
    ∃ t, printMembers ((k, v) :: kvs) = '"' :: t := by
  cases kvs with
  | nil => exact ⟨escapeString k ++ '"' :: ':' :: ' ' :: printValue v, rfl⟩
  | cons m ms =>
    exact ⟨escapeString k ++ '"' :: ':' :: ' ' :: printValue v ++ ',' :: ' ' ::
      printMembers (m :: ms), by simp [printMembers]⟩

theorem measureValue_pos (v : JsonValue) : 1 ≤ measureValue v := by
  cases v <;> simp [measureValue]

theorem wfElems_cons (x : JsonValue) (xs : List JsonValue) (h : wfElems (x :: xs) = true) :
    wfValue x = true ∧ wfElems xs = true := by
  have h2 : (wfValue x && wfElems xs) = true := h
  exact Bool.and_eq_true_iff.mp h2

theorem wfMembers_cons (k : PyStr) (v : JsonValue) (kvs : List (PyStr × JsonValue))
    (h : wfMembers ((k, v) :: kvs) = true) :
    keyFresh k kvs = true ∧ wfValue v = true ∧ wfMembers kvs = true := by
  have h2 : (keyFresh k kvs && wfValue v && wfMembers kvs) = true := h
  obtain ⟨h3, h4⟩ := Bool.and_eq_true_iff.mp h2
  obtain ⟨h5, h6⟩ := Bool.and_eq_true_iff.mp h3
  exact ⟨h5, h6, h4⟩

theorem keyFresh_not_mem (k : PyStr) (kvs : List (PyStr × JsonValue))
    (h : keyFresh k kvs = true) : k ∉ kvs.map Prod.fst := by
  induction kvs with
  | nil => simp
  | cons hd tl ih =>
    obtain ⟨k2, v2⟩ := hd
    have h2 : (!(k2 = k : Bool) && keyFresh k tl) = true := h
    obtain ⟨h3, h4⟩ := Bool.and_eq_true_iff.mp h2
    simp only [List.map_cons, List.mem_cons, not_or]
    refine ⟨?_, ih h4⟩
    intro hh
    rw [hh] at h3
    simp at h3

theorem wfMembers_keyNodup (kvs : List (PyStr × JsonValue)) (h : wfMembers kvs = true) :
    (kvs.map Prod.fst).Nodup := by
  induction kvs with
  | nil => simp
  | cons hd tl ih =>
    obtain ⟨k, v⟩ := hd
    obtain ⟨h1, h2, h3⟩ := wfMembers_cons k v tl h
    simp only [List.map_cons, List.nodup_cons]
    exact ⟨keyFresh_not_mem k tl h1, ih h3⟩

theorem assocUpsert_of_not_mem (k : PyStr) (v : JsonValue)
    (acc : List (PyStr × JsonValue)) (h : k ∉ acc.map Prod.fst) :
    assocUpsert k v acc = acc ++ [(k, v)] := by
  induction acc with
  | nil => rfl
  | cons hd tl ih =>
    obtain ⟨k2, v2⟩ := hd
    simp only [List.map_cons, List.mem_cons, not_or] at h
    simp only [assocUpsert, if_neg (fun hh : k2 = k => h.1 hh.symm), List.cons_append]
    rw [ih h.2]

theorem foldl_upsert (kvs : List (PyStr × JsonValue)) :
    ∀ acc, (acc.map Prod.fst ++ kvs.map Prod.fst).Nodup →
    kvs.foldl (fun a p => assocUpsert p.1 p.2 a) acc = acc ++ kvs := by
  induction kvs with
  | nil => intro acc h; simp
  | cons hd tl ih =>
    intro acc h
    obtain ⟨k, v⟩ := hd
    have hk : k ∉ acc.map Prod.fst := by
      intro hmem
      have hdisj := (List.nodup_append.mp h).2.2
      exact hdisj hmem (by simp)
    show List.foldl (fun a p => assocUpsert p.1 p.2 a) (assocUpsert k v acc) tl = _
    rw [assocUpsert_of_not_mem k v acc hk, ih (acc ++ [(k, v)]) (by
      simp only [List.map_append, List.map_cons, List.map_nil, List.append_assoc,
        List.singleton_append] at h ⊢
      exact h)]
    simp

theorem dedupKeys_of_wf (kvs : List (PyStr × JsonValue)) (h : wfMembers kvs = true) :
    dedupKeys kvs = kvs := by
  unfold dedupKeys
  rw [foldl_upsert kvs [] (by simpa using wfMembers_keyNodup kvs h)]
  simp

/-! ## Dispatch lemmas for `parseValue` -/

theorem parseValue_at_str (fuel : Nat) (r : PyStr) :
    parseValue (fuel + 1) ('"' :: r) =
      (parseStringBody fuel r).map fun (s, r2) => (JsonValue.str s, r2) := by
  simp [parseValue]

theorem parseValue_at_obj (fuel : Nat) (r : PyStr) :
    parseValue (fuel + 1) ('\x7b' :: r) =
      (match skipWs r with
      | [] => none
      | d :: r2 =>
        if d = '\x7d' then some (JsonValue.obj [], r2)
        else (parseMembers fuel (d :: r2)).map
          fun (kvs, r3) => (JsonValue.obj (dedupKeys kvs), r3)) := by
  simp [parseValue]

theorem parseValue_at_arr (fuel : Nat) (r : PyStr) :
    parseValue (fuel + 1) ('[' :: r) =
      (match skipWs r with
      | [] => none
      | d :: r2 =>
        if d = ']' then some (JsonValue.arr [], r2)
        else (parseElems fuel (d :: r2)).map
          fun (xs, r3) => (JsonValue.arr xs, r3)) := by
  simp [parseValue]

theorem parseValue_at_null (fuel : Nat) (r : PyStr) :
    parseValue (fuel + 1) ('n' :: 'u' :: 'l' :: 'l' :: r) = some (JsonValue.null, r) := by
  simp [parseValue, pyOfString, List.isPrefixOf]

theorem parseValue_at_true (fuel : Nat) (r : PyStr) :
    parseValue (fuel + 1) ('t' :: 'r' :: 'u' :: 'e' :: r) = some (JsonValue.bool true, r) := by
  simp [parseValue, pyOfString, List.isPrefixOf]

theorem parseValue_at_false (fuel : Nat) (r : PyStr) :
    parseValue (fuel + 1) ('f' :: 'a' :: 'l' :: 's' :: 'e' :: r) =
      some (JsonValue.bool false, r) := by
  simp [parseValue, pyOfString, List.isPrefixOf]

theorem parseValue_at_num (fuel : Nat) (c : Char) (r : PyStr)
    (h : c.toNat = 45 ∨ (48 ≤ c.toNat ∧ c.toNat ≤ 57)) :
    parseValue (fuel + 1) (c :: r) =
      (parseNumber (c :: r)).map fun (n, r2) => (JsonValue.int n, r2) := by
  have h1 : ¬ c = '"' := char_ne_of_toNat_ne c '"' (by
    rw [show ('"' : Char).toNat = 34 from rfl]; omega)
  have h2 : ¬ c = '\x7b' := char_ne_of_toNat_ne c '\x7b' (by
    rw [show ('\x7b' : Char).toNat = 123 from rfl]; omega)
  have h3 : ¬ c = '[' := char_ne_of_toNat_ne c '[' (by
    rw [show ('[' : Char).toNat = 91 from rfl]; omega)
  have hn : (pyOfString "null").isPrefixOf (c :: r) = false := by
    rw [show pyOfString "null" = 'n' :: ['u', 'l', 'l'] from rfl]
    exact isPrefixOf_cons_false _ _ _ _ (by
      rw [show ('n' : Char).toNat = 110 from rfl]; omega)
  have ht : (pyOfString "true").isPrefixOf (c :: r) = false := by
    rw [show pyOfString "true" = 't' :: ['r', 'u', 'e'] from rfl]
    exact isPrefixOf_cons_false _ _ _ _ (by
      rw [show ('t' : Char).toNat = 116 from rfl]; omega)
  have hf : (pyOfString "false").isPrefixOf (c :: r) = false := by
    rw [show pyOfString "false" = 'f' :: ['a', 'l', 's', 'e'] from rfl]
    exact isPrefixOf_cons_false _ _ _ _ (by
      rw [show ('f' : Char).toNat = 102 from rfl]; omega)
  simp [parseValue, h1, h2, h3, hn, ht, hf]

theorem numSafe_nil : numSafe [] := trivial

theorem numSafe_rsqb (r : PyStr) : numSafe (']' :: r) :=
  ⟨by decide, by decide, by decide, by decide⟩

theorem numSafe_comma (r : PyStr) : numSafe (',' :: r) :=
  ⟨by decide, by decide, by decide, by decide⟩

theorem numSafe_rbrace (r : PyStr) : numSafe ('\x7d' :: r) :=
  ⟨by decide, by decide, by decide, by decide⟩

/-! ## The parser/printer round trip -/

theorem parse_print_rt (fuel : Nat) :
    (∀ v rest, measureValue v ≤ fuel → wfValue v = true → numSafe rest →
      parseValue fuel (printValue v ++ rest) = some (v, rest)) ∧
    (∀ xs rest, xs ≠ [] → measureElems xs ≤ fuel → wfElems xs = true →
      parseElems fuel (printElems xs ++ ']' :: rest) = some (xs, rest)) ∧
    (∀ kvs rest, kvs ≠ [] → measureMembers kvs ≤ fuel → wfMembers kvs = true →
      parseMembers fuel (printMembers kvs ++ '\x7d' :: rest) = some (kvs, rest)) := by
  induction fuel with
  | zero =>
    refine ⟨?_, ?_, ?_⟩
    · intro v rest hm _ _
      exact absurd hm (by have := measureValue_pos v; omega)
    · intro xs rest hne hm _
      cases xs with
      | nil => exact absurd rfl hne
      | cons x xs2 =>
        exact absurd hm (by simp [measureElems])
    · intro kvs rest hne hm _
      cases kvs with
      | nil => exact absurd rfl hne
      | cons kv kvs2 =>
        obtain ⟨k, v⟩ := kv
        exact absurd hm (by simp [measureMembers])
  | succ fuel ih =>
    obtain ⟨ihV, ihE, ihM⟩ := ih
    refine ⟨?_, ?_, ?_⟩
    · intro v rest hm hwf hns
      cases v with
      | null =>
        show parseValue (fuel + 1) ('n' :: 'u' :: 'l' :: 'l' :: rest) =
          some (JsonValue.null, rest)
        exact parseValue_at_null fuel rest
      | bool b =>
        cases b with
        | true =>
          show parseValue (fuel + 1) ('t' :: 'r' :: 'u' :: 'e' :: rest) =
            some (JsonValue.bool true, rest)
          exact parseValue_at_true fuel rest
        | false =>
          show parseValue (fuel + 1) ('f' :: 'a' :: 'l' :: 's' :: 'e' :: rest) =
            some (JsonValue.bool false, rest)
          exact parseValue_at_false fuel rest
      | int n =>
        obtain ⟨d, t, hd, hor⟩ := intRepr_head n
        have hpr : printValue (JsonValue.int n) = intRepr n := rfl
        rw [hpr, hd, List.cons_append, parseValue_at_num fuel d (t ++ rest) hor]
        have hnum := parseNumber_intRepr n rest hns
        rw [hd, List.cons_append] at hnum
        rw [hnum]
        rfl
      | str s =>
        have hpr : printValue (JsonValue.str s) ++ rest =
            '"' :: (escapeString s ++ '"' :: rest) := by
          show ('"' :: (escapeString s ++ ['"'])) ++ rest = _
          simp
        rw [hpr, parseValue_at_str fuel _,
          parseStringBody_rt s fuel rest (by simp [measureValue] at hm; omega)]
        rfl
      | arr xs =>
        cases xs with
        | nil =>
          have hpr : printValue (JsonValue.arr []) ++ rest = '[' :: ']' :: rest := rfl
          rw [hpr, parseValue_at_arr fuel _]
          simp [skipWs_cons_not_ws ']' rest (by decide)]
        | cons x xs2 =>
          have hpr : printValue (JsonValue.arr (x :: xs2)) ++ rest =
              '[' :: (printElems (x :: xs2) ++ ']' :: rest) := by
            show ('[' :: (printElems (x :: xs2) ++ [']'])) ++ rest = _
            simp
          rw [hpr, parseValue_at_arr fuel _]
          obtain ⟨c, t, hc, hws, hne1, hne2⟩ := printElems_head x xs2
          rw [hc, List.cons_append]
          simp only [skipWs_cons_not_ws c _ hws]
          rw [if_neg hne1, ← List.cons_append, ← hc]
          rw [ihE (x :: xs2) rest (by simp) (by simp [measureValue] at hm; omega)
            (show wfElems (x :: xs2) = true from hwf)]
          rfl
      | obj kvs =>
        cases kvs with
        | nil =>
          have hpr : printValue (JsonValue.obj []) ++ rest = '\x7b' :: '\x7d' :: rest := rfl
          rw [hpr, parseValue_at_obj fuel _]
          simp [skipWs_cons_not_ws '\x7d' rest (by decide)]
        | cons kv kvs2 =>
          obtain ⟨k, v⟩ := kv
          have hwfm : wfMembers ((k, v) :: kvs2) = true := hwf
          have hpr : printValue (JsonValue.obj ((k, v) :: kvs2)) ++ rest =
              '\x7b' :: (printMembers ((k, v) :: kvs2) ++ '\x7d' :: rest) := by
            show ('\x7b' :: (printMembers ((k, v) :: kvs2) ++ ['\x7d'])) ++ rest = _
            simp
          rw [hpr, parseValue_at_obj fuel _]
          obtain ⟨t, hc⟩ := printMembers_cons k v kvs2
          rw [hc, List.cons_append]
          simp only [skipWs_cons_not_ws '"' _ (by decide)]
          rw [if_neg (by decide : ¬('"' : Char) = '\x7d'), ← List.cons_append, ← hc]
          rw [ihM ((k, v) :: kvs2) rest (by simp) (by simp [measureValue] at hm; omega) hwfm]
          simp [dedupKeys_of_wf _ hwfm]
    · intro xs rest hne hm hwf
      cases xs with
      | nil => exact absurd rfl hne
      | cons x xs2 =>
        obtain ⟨hwx, hwxs⟩ := wfElems_cons x xs2 hwf
        cases xs2 with
        | nil =>
          have hpr : printElems [x] ++ ']' :: rest = printValue x ++ ']' :: rest := rfl
          simp only [parseElems]
          rw [hpr, ihV x (']' :: rest) (by simp [measureElems] at hm; omega) hwx
            (numSafe_rsqb rest)]
          simp [skipWs_cons_not_ws ']' rest (by decide)]
        | cons y ys =>
          have hpr : printElems (x :: y :: ys) ++ ']' :: rest =
              printValue x ++ (',' :: ' ' :: (printElems (y :: ys) ++ ']' :: rest)) := by
            show (printValue x ++ ',' :: ' ' :: printElems (y :: ys)) ++ ']' :: rest = _
            simp
          simp only [parseElems]
          rw [hpr, ihV x _ (by simp [measureElems] at hm; omega) hwx (numSafe_comma _)]
          simp only [skipWs_cons_not_ws ',' _ (by decide)]
          rw [skipWs_cons_ws ' ' _ (by decide)]
          obtain ⟨c, t, hc, hws, hne1, hne2⟩ := printElems_head y ys
          rw [hc, List.cons_append, skipWs_cons_not_ws c _ hws, ← List.cons_append, ← hc]
          rw [ihE (y :: ys) rest (by simp) (by simp [measureElems] at hm ⊢; omega) hwxs]
          simp
    · intro kvs rest hne hm hwf
      cases kvs with
      | nil => exact absurd rfl hne
      | cons kv kvs2 =>
        obtain ⟨k, v⟩ := kv
        obtain ⟨hkf, hwv, hwm⟩ := wfMembers_cons k v kvs2 hwf
        cases kvs2 with
        | nil =>
          have hpr : printMembers [(k, v)] ++ '\x7d' :: rest =
              '"' :: (escapeString k ++ '"' :: ':' :: ' ' :: (printValue v ++ '\x7d' :: rest)) := by
            show ('"' :: escapeString k ++ '"' :: ':' :: ' ' :: printValue v) ++ '\x7d' :: rest = _
            simp
          rw [hpr]
          simp only [parseMembers]
          have hkey : parseStringBody fuel
              (escapeString k ++ '"' :: (':' :: ' ' :: (printValue v ++ '\x7d' :: rest))) =
              some (k, ':' :: ' ' :: (printValue v ++ '\x7d' :: rest)) :=
            parseStringBody_rt k fuel _ (by simp [measureMembers] at hm; omega)
          rw [hkey]
          simp only [skipWs_cons_not_ws ':' _ (by decide)]
          rw [skipWs_cons_ws ' ' _ (by decide)]
          obtain ⟨c, t, hc, hws, hne1, hne2⟩ := printValue_head v
          rw [hc, List.cons_append, skipWs_cons_not_ws c _ hws, ← List.cons_append, ← hc]
          rw [ihV v ('\x7d' :: rest) (by simp [measureMembers] at hm; omega) hwv
            (numSafe_rbrace rest)]
          simp [skipWs_cons_not_ws '\x7d' rest (by decide)]
        | cons m ms =>
          obtain ⟨km, vm⟩ := m
          have hpr : printMembers ((k, v) :: (km, vm) :: ms) ++ '\x7d' :: rest =
              '"' :: (escapeString k ++ '"' :: ':' :: ' ' :: (printValue v ++
                (',' :: ' ' :: (printMembers ((km, vm) :: ms) ++ '\x7d' :: rest)))) := by
            show (('"' :: escapeString k ++ '"' :: ':' :: ' ' :: printValue v) ++
              ',' :: ' ' :: printMembers ((km, vm) :: ms)) ++ '\x7d' :: rest = _
            simp
          rw [hpr]
          simp only [parseMembers]
          have hkey : parseStringBody fuel
              (escapeString k ++ '"' :: (':' :: ' ' :: (printValue v ++
                (',' :: ' ' :: (printMembers ((km, vm) :: ms) ++ '\x7d' :: rest))))) =
              some (k, ':' :: ' ' :: (printValue v ++
                (',' :: ' ' :: (printMembers ((km, vm) :: ms) ++ '\x7d' :: rest)))) :=
            parseStringBody_rt k fuel _ (by simp [measureMembers] at hm; omega)
          rw [hkey]
          simp only [skipWs_cons_not_ws ':' _ (by decide)]
          rw [skipWs_cons_ws ' ' _ (by decide)]
          obtain ⟨c, t, hc, hws, hne1, hne2⟩ := printValue_head v
          rw [hc, List.cons_append, skipWs_cons_not_ws c _ hws, ← List.cons_append, ← hc]
          rw [ihV v _ (by simp [measureMembers] at hm; omega) hwv (numSafe_comma _)]
          simp only [skipWs_cons_not_ws ',' _ (by decide)]
          rw [skipWs_cons_ws ' ' _ (by decide)]
          obtain ⟨t2, hc2⟩ := printMembers_cons km vm ms
          rw [hc2, List.cons_append]
          simp only [skipWs_cons_not_ws '"' _ (by decide)]
          rw [← List.cons_append, ← hc2]
          rw [ihM ((km, vm) :: ms) rest (by simp) (by simp [measureMembers] at hm ⊢; omega) hwm]
          simp

theorem measure_le_print (n : Nat) :
    (∀ v, measureValue v ≤ n → measureValue v ≤ (printValue v).length + 1) ∧
    (∀ xs, measureElems xs ≤ n → measureElems xs ≤ (printElems xs).length + 2) ∧
    (∀ kvs, measureMembers kvs ≤ n → measureMembers kvs ≤ (printMembers kvs).length + 2) := by
  induction n with
  | zero =>
    refine ⟨?_, ?_, ?_⟩
    · intro v hm
      exact absurd hm (by have := measureValue_pos v; omega)
    · intro xs hm
      cases xs with
      | nil => simp [measureElems]
      | cons x xs2 => exact absurd hm (by simp [measureElems])
    · intro kvs hm
      cases kvs with
      | nil => simp [measureMembers]
      | cons kv kvs2 =>
        obtain ⟨k, v⟩ := kv
        exact absurd hm (by simp [measureMembers])
  | succ n ih =>
    obtain ⟨ihV, ihE, ihM⟩ := ih
    refine ⟨?_, ?_, ?_⟩
    · intro v hm
      cases v with
      | null => simp [measureValue, printValue]
      | bool b => cases b <;> simp [measureValue, printValue]
      | int i => simp [measureValue]
      | str s =>
        have := length_le_escapeString s
        simp only [measureValue, printValue, List.length_cons, List.length_append,
          List.length_singleton]
        omega
      | arr xs =>
        have h2 : measureElems xs ≤ n := by
          simp only [measureValue] at hm
          omega
        have := ihE xs h2
        simp only [measureValue, printValue, List.length_cons, List.length_append,
          List.length_singleton]
        omega
      | obj kvs =>
        have h2 : measureMembers kvs ≤ n := by
          simp only [measureValue] at hm
          omega
        have := ihM kvs h2
        simp only [measureValue, printValue, List.length_cons, List.length_append,
          List.length_singleton]
        omega
    · intro xs hm
      cases xs with
      | nil => simp [measureElems]
      | cons x xs2 =>
        have hx : measureValue x ≤ n := by
          simp only [measureElems] at hm
          have := measureValue_pos x
          omega
        have h1 := ihV x hx
        cases xs2 with
        | nil =>
          simp only [measureElems, printElems, List.length_nil]
          omega
        | cons y ys =>
          have hys : measureElems (y :: ys) ≤ n := by
            simp only [measureElems] at hm ⊢
            have := measureValue_pos x
            omega
          have h2 := ihE (y :: ys) hys
          simp only [measureElems, printElems, List.length_append, List.length_cons] at h2 ⊢
          omega
    · intro kvs hm
      cases kvs with
      | nil => simp [measureMembers]
      | cons kv kvs2 =>
        obtain ⟨k, v⟩ := kv
        have hv : measureValue v ≤ n := by
          simp only [measureMembers] at hm
          omega
        have h1 := ihV v hv
        have hk := length_le_escapeString k
        cases kvs2 with
        | nil =>
          simp only [measureMembers, printMembers, List.length_append, List.length_cons]
          omega
        | cons m ms =>
          obtain ⟨km, vm⟩ := m
          have hms : measureMembers ((km, vm) :: ms) ≤ n := by
            simp only [measureMembers] at hm ⊢
            have := measureValue_pos v
            omega
          have h2 := ihM ((km, vm) :: ms) hms
          simp only [measureMembers, printMembers, List.length_append, List.length_cons] at h2 ⊢
          omega

/-- The central round trip: `json.loads(json.dumps(v))` recovers `v` for every
well-formed JSON value. -/
theorem json_loads_dumps (v : JsonValue) (h : wfValue v = true) :
    json_loads (json_dumps v) = some v := by
  unfold json_loads json_dumps
  obtain ⟨c, t, hc, hws, hne1, hne2⟩ := printValue_head v
  rw [hc, skipWs_cons_not_ws c t hws, ← hc]
  have hb := (measure_le_print (measureValue v)).1 v le_rfl
  have hrt := (parse_print_rt ((printValue v).length + 1)).1 v [] (by omega) h numSafe_nil
  rw [List.append_nil] at hrt
  rw [hrt]
  simp [skipWs]

/-! ## Triples and profile round trips -/

theorem pyStrip_of_ends (c d : Char) (mid : PyStr) (hc : isPySpace c = false)
    (hd : isPySpace d = false) :
    pyStrip (c :: (mid ++ [d])) = c :: (mid ++ [d]) := by
  have hr : pyStripRight (c :: (mid ++ [d])) = c :: (mid ++ [d]) := by
    unfold pyStripRight
    rw [show (c :: (mid ++ [d])).reverse = d :: (mid.reverse ++ [c]) by
      simp [List.reverse_cons, List.reverse_append]]
    rw [List.dropWhile_cons, if_neg (by simp [hd])]
    simp [List.reverse_cons, List.reverse_append]
  unfold pyStrip
  rw [hr]
  unfold pyStripLeft
  rw [List.dropWhile_cons, if_neg (by simp [hc])]

theorem newline_not_mem_tripleLine (a b c : PyStr) :
    '\n' ∉ printValue (JsonValue.arr [.str a, .str b, .str c]) := by
  have h : printValue (JsonValue.arr [.str a, .str b, .str c]) =
      '[' :: (('"' :: escapeString a ++ ['"']) ++ ',' :: ' ' ::
        (('"' :: escapeString b ++ ['"']) ++ ',' :: ' ' ::
          ('"' :: escapeString c ++ ['"']))) ++ [']'] := rfl
  intro hmem
  rw [h] at hmem
  simp [newline_not_mem_escapeString a, newline_not_mem_escapeString b,
    newline_not_mem_escapeString c] at hmem

theorem lineRes_tripleLine (a b c : PyStr) :
    lineRes (printValue (JsonValue.arr [.str a, .str b, .str c])) = some (some (a, b, c)) := by
  have hshape : printValue (JsonValue.arr [.str a, .str b, .str c]) =
      '[' :: ((printElems [JsonValue.str a, .str b, .str c] ++ []) ++ [']']) := by
    simp [printValue]
  have hstrip : pyStrip (printValue (JsonValue.arr [.str a, .str b, .str c])) =
      printValue (JsonValue.arr [.str a, .str b, .str c]) := by
    conv_lhs => rw [hshape]
    rw [pyStrip_of_ends '[' ']' _ (by decide) (by decide)]
    rw [← hshape]
  unfold lineRes
  rw [hstrip]
  rw [if_neg (show ¬(printValue (JsonValue.arr [.str a, .str b, .str c]) = []) from by
    rw [hshape]; simp)]
  rw [show json_loads (printValue (JsonValue.arr [.str a, .str b, .str c])) =
    some (JsonValue.arr [.str a, .str b, .str c]) from json_loads_dumps _ rfl]
  simp [pyStrOf]

theorem parseTriplesLines_map (ts : List Triple) :
    parseTriplesLines (ts.map fun t3 =>
      printValue (JsonValue.arr [.str t3.1, .str t3.2.1, .str t3.2.2])) = some ts := by
  induction ts with
  | nil => rfl
  | cons tr trs ih =>
    obtain ⟨a, b, c⟩ := tr
    simp only [List.map_cons]
    rw [parseTriplesLines, lineRes_tripleLine a b c]
    rw [ih]
    rfl

/-- Round trip for the triples payload: `parse_triples(serialize_triples(t))`
recovers `t` (and raises no decode error). -/
theorem parse_serialize_triples (t : List Triple) :
    parse_triples (serialize_triples t) = some t := by
  rw [parse_triples_eq_lines]
  cases t with
  | nil => rfl
  | cons tr trs =>
    have hser : serialize_triples (tr :: trs) = joinLines ((tr :: trs).map fun t3 =>
        printValue (JsonValue.arr [.str t3.1, .str t3.2.1, .str t3.2.2])) := rfl
    rw [hser, splitLines_joinLines _ (by simp) ?hnl]
    case hnl =>
      intro l hl
      simp only [List.mem_map] at hl
      obtain ⟨t3, _, hleq⟩ := hl
      rw [← hleq]
      exact newline_not_mem_tripleLine _ _ _
    exact parseTriplesLines_map (tr :: trs)

/-- Round trip for the profile payload. -/
theorem parse_serialize_profile (p : JsonValue) (h : wfValue p = true) :
    parse_profile (serialize_profile p) = some p :=
  json_loads_dumps p h

theorem load_save_knowledge (st : InMemoryStore) (u : PyStr) (t : List Triple) :
    load_knowledge_triples (save_knowledge_triples st u t) u = some t := by
  unfold load_knowledge_triples save_knowledge_triples
  rw [get_put_self]
  exact parse_serialize_triples t

theorem load_save_profile (st : InMemoryStore) (u : PyStr) (p : JsonValue)
    (h : wfValue p = true) :
    load_user_profile (save_user_profile st u p) u = some (some p) := by
  unfold load_user_profile save_user_profile
  rw [get_put_self]
  show (parse_profile (serialize_profile p)).map some = some (some p)
  rw [parse_serialize_profile p h]
  rfl

/-! ## Retrieval and tolerance support lemmas -/

theorem retrieve_after_save (st : InMemoryStore) (u : PyStr) (t : List Triple)
    (q : PyStr) (k : Int) :
    retrieve_relevant_knowledge (save_knowledge_triples st u t) u q k =
      some (if pyStrip q = [] then pySliceTo k t
            else pySliceTo k (t.filter (tripleMatches q))) := by
  unfold retrieve_relevant_knowledge
  rw [load_save_knowledge]
  by_cases h : pyStrip q = [] <;> simp [h]

theorem retrieve_absent (st : InMemoryStore) (u q : PyStr) (k : Int)
    (h : get_object (knowledge_key u) st = none) :
    retrieve_relevant_knowledge st u q k = some [] := by
  unfold retrieve_relevant_knowledge load_knowledge_triples
  rw [h]
  by_cases hq : pyStrip q = [] <;> simp [hq, pySliceTo]

theorem json_loads_nil : json_loads [] = none := rfl

theorem lineRes_short_arr (l : PyStr) (xs : List JsonValue)
    (hloads : json_loads (pyStrip l) = some (JsonValue.arr xs)) (hlen : xs.length < 3) :
    lineRes l = some none := by
  have hne : pyStrip l ≠ [] := fun hh => by
    rw [hh, json_loads_nil] at hloads
    exact Option.noConfusion hloads
  unfold lineRes
  rw [if_neg hne, hloads]
  simp [show ¬(3 ≤ xs.length) from by omega]

theorem lineRes_long_arr (l : PyStr) (xs : List JsonValue)
    (hloads : json_loads (pyStrip l) = some (JsonValue.arr xs)) (hlen : 3 ≤ xs.length) :
    lineRes l = some (some (pyStrOf (xs.getD 0 .null), pyStrOf (xs.getD 1 .null),
      pyStrOf (xs.getD 2 .null))) := by
  have hne : pyStrip l ≠ [] := fun hh => by
    rw [hh, json_loads_nil] at hloads
    exact Option.noConfusion hloads
  unfold lineRes
  rw [if_neg hne, hloads]
  simp [hlen]

theorem parseTriplesLines_middle_skip (l : PyStr) (h : lineRes l = some none)
    (ls1 ls2 : List PyStr) :
    parseTriplesLines (ls1 ++ l :: ls2) = parseTriplesLines (ls1 ++ ls2) := by
  induction ls1 with
  | nil =>
    rw [List.nil_append, List.nil_append]
    exact parseTriplesLines_cons_skip l ls2 h
  | cons l3 ls3 ih =>
    rw [List.cons_append, List.cons_append]
    unfold parseTriplesLines
    rw [ih]

theorem parseTriplesLines_all_blank (ls : List PyStr) (h : ∀ l ∈ ls, pyStrip l = []) :
    parseTriplesLines ls = some [] := by
  induction ls with
  | nil => rfl
  | cons l ls2 ih =>
    rw [parseTriplesLines_cons_skip l ls2 (lineRes_of_strip_nil l (h l (by simp)))]
    exact ih (fun x hx => h x (List.mem_cons_of_mem l hx))

theorem parseTriplesLines_bad_line (ls : List PyStr) (l : PyStr) (hmem : l ∈ ls)
    (hne : pyStrip l ≠ []) (hbad : json_loads (pyStrip l) = none) :
    parseTriplesLines ls = none := by
  have hl : lineRes l = none := by
    unfold lineRes
    rw [if_neg hne, hbad]
  induction ls with
  | nil => exact absurd hmem (by simp)
  | cons l2 ls2 ih =>
    rcases List.mem_cons.mp hmem with heq | hmem2
    · subst heq
      unfold parseTriplesLines
      rw [hl]
    · unfold parseTriplesLines
      rw [ih hmem2]
      cases hlr : lineRes l2 with
      | none => rfl
      | some o => cases o <;> rfl

theorem pySliceTo_nonneg {α : Type} (k : Int) (h : 0 ≤ k) (l : List α) :
    pySliceTo k l = l.take k.toNat := by
  simp [pySliceTo, h]

theorem pySliceTo_neg {α : Type} (k : Int) (h : k < 0) (l : List α) :
    pySliceTo k l = l.take (l.length - k.natAbs) := by
  simp [pySliceTo, not_le.mpr h]

/-! ## Claim theorems -/

/-- C9: for every user id `u`, `profile_key(u)` is the string
`profiles/` + `u` + `.json` and `knowledge_key(u)` is `knowledge/` + `u` +
`.jsonl`; both functions are pure and total over arbitrary string input
(they are total Lean functions of the string). -/
theorem claim_C9 : ∀ s : String,
    profile_key s.data = ("profiles/" ++ s ++ ".json").data ∧
    knowledge_key s.data = ("knowledge/" ++ s ++ ".jsonl").data := by
  intro s
  constructor <;>
    simp [profile_key, knowledge_key, pyOfString, String.data_append]

/-- C8: the session lifecycle has exactly the four states with integer codes
1..4, a new session starts `Active`, every transition strictly increases the
status code (forward only, no skip-back), a 200-day-old session is eligible
for the deep-archival transition and a 3-day-old one for no archival
transition.  The transition relation and day thresholds are modelled from the
spec (the scheduler is external to the repository); states, codes and the
initial status come from `models.py`. -/
theorem claim_C8 :
    (∀ s : SessionStatus,
      s = .active ∨ s = .coldArchived ∨ s = .deepArchived ∨ s = .deleted) ∧
    (statusCode .active = 1 ∧ statusCode .coldArchived = 2 ∧
      statusCode .deepArchived = 3 ∧ statusCode .deleted = 4) ∧
    sessionInitialStatus = .active ∧
    (∀ s s2 : SessionStatus, StatusTransition s s2 → statusCode s < statusCode s2) ∧
    eligibleForDeepArchival 200 ∧
    (¬ eligibleForColdArchival 3 ∧ ¬ eligibleForDeepArchival 3) := by
  refine ⟨?_, ⟨rfl, rfl, rfl, rfl⟩, rfl, ?_, ?_, ?_, ?_⟩
  · intro s
    cases s
    · exact Or.inl rfl
    · exact Or.inr (Or.inl rfl)
    · exact Or.inr (Or.inr (Or.inl rfl))
    · exact Or.inr (Or.inr (Or.inr rfl))
  · intro s s2 ht
    cases ht with
    | activeToCold => decide
    | coldToDeep => decide
    | toDeleted s hne =>
      cases s with
      | active => decide
      | coldArchived => decide
      | deepArchived => decide
      | deleted => exact absurd rfl hne
  · show 180 < 200
    omega
  · show ¬ 7 < 3
    omega
  · show ¬ 180 < 3
    omega

/-- Witness for C8: the `Active → ColdArchived` transition moves the status
code forward (1 < 2). -/
theorem claim_C8_witness :
    statusCode SessionStatus.active < statusCode SessionStatus.coldArchived :=
  claim_C8.2.2.2.1 SessionStatus.active SessionStatus.coldArchived
    StatusTransition.activeToCold

/-- C3: the in-memory reference backend satisfies the key/value contract:
get-after-put returns the payload, get of a never-written key is `none`,
get-after-delete is `none`, delete of a non-existent key leaves the store
unchanged (and does not fail, being a total function), and the prefix listing
holds exactly the live keys that start with the prefix. -/
theorem claim_C3 :
    (∀ (st : InMemoryStore) (k : PyStr) (v : Bytes),
      get_object k (put_object k v st) = some v) ∧
    (∀ (st : InMemoryStore) (k : PyStr), k ∉ st.map Prod.fst → get_object k st = none) ∧
    (∀ (st : InMemoryStore) (k : PyStr), keysNodup st →
      get_object k (delete_object k st) = none) ∧
    (∀ (st : InMemoryStore) (k : PyStr), k ∉ st.map Prod.fst → delete_object k st = st) ∧
    (∀ (st : InMemoryStore) (p k : PyStr),
      k ∈ list_prefix_keys p st ↔ k ∈ st.map Prod.fst ∧ p.isPrefixOf k) := by
  refine ⟨?_, ?_, ?_, ?_, ?_⟩
  · intro st k v
    exact get_put_self k v st
  · intro st k h
    exact get_of_not_mem k st h
  · intro st k h
    exact get_delete_self k st h
  · intro st k h
    exact delete_of_not_mem k st h
  · intro st p k
    exact mem_list_prefix_keys k p st

/-- Witness for C3 at a concrete one-entry store. -/
theorem claim_C3_witness :
    get_object (pyOfString "profiles/u1.json")
      (put_object (pyOfString "profiles/u1.json") (pyOfString "data") emptyStore) =
      some (pyOfString "data") ∧
    get_object (pyOfString "absent") [(pyOfString "k", pyOfString "v")] = none ∧
    get_object (pyOfString "k")
      (delete_object (pyOfString "k") [(pyOfString "k", pyOfString "v")]) = none ∧
    delete_object (pyOfString "absent") [(pyOfString "k", pyOfString "v")] =
      [(pyOfString "k", pyOfString "v")] ∧
    (pyOfString "k" ∈ list_prefix_keys (pyOfString "k") [(pyOfString "k", pyOfString "v")] ↔
      pyOfString "k" ∈ [(pyOfString "k", pyOfString "v")].map Prod.fst ∧
        (pyOfString "k").isPrefixOf (pyOfString "k")) :=
  ⟨claim_C3.1 emptyStore _ _,
   claim_C3.2.1 _ _ (by decide),
   claim_C3.2.2.1 _ _ (by constructor <;> decide),
   claim_C3.2.2.2.1 _ _ (by decide),
   claim_C3.2.2.2.2 _ _ _⟩

/-- C7: the factory returns an `OssStorage` exactly when all four
configuration fields are present and non-blank after trimming, in which case
the bucket and keys are the trimmed values and the endpoint is the trimmed
value with trailing slashes stripped and, when no `http://` or `https://`
scheme is present, `https://` prefixed (so the result always carries a
scheme); otherwise it returns the in-memory backend (and, being a total
function, never raises). -/
theorem claim_C7 : ∀ cfg : OssConfig,
    (pyStrip (cfg.oss_endpoint.getD []) ≠ [] ∧ pyStrip (cfg.oss_bucket.getD []) ≠ [] ∧
      pyStrip (cfg.oss_access_key_id.getD []) ≠ [] ∧
      pyStrip (cfg.oss_access_key_secret.getD []) ≠ [] →
      create_long_term_backend_from_config cfg =
        BackendChoice.oss (pyStrip (cfg.oss_bucket.getD []))
          (pyStrip (cfg.oss_access_key_id.getD []))
          (pyStrip (cfg.oss_access_key_secret.getD []))
          (if (pyOfString "http://").isPrefixOf
                (pyRstripSlash (pyStrip (cfg.oss_endpoint.getD []))) ∨
              (pyOfString "https://").isPrefixOf
                (pyRstripSlash (pyStrip (cfg.oss_endpoint.getD []))) then
            pyRstripSlash (pyStrip (cfg.oss_endpoint.getD []))
          else pyOfString "https://" ++ pyRstripSlash (pyStrip (cfg.oss_endpoint.getD []))) ∧
      (∀ b ki ks e, create_long_term_backend_from_config cfg =
        BackendChoice.oss b ki ks e →
        ((pyOfString "http://").isPrefixOf e ∨ (pyOfString "https://").isPrefixOf e))) ∧
    (¬ (pyStrip (cfg.oss_endpoint.getD []) ≠ [] ∧ pyStrip (cfg.oss_bucket.getD []) ≠ [] ∧
        pyStrip (cfg.oss_access_key_id.getD []) ≠ [] ∧
        pyStrip (cfg.oss_access_key_secret.getD []) ≠ []) →
      create_long_term_backend_from_config cfg = BackendChoice.inMemory) := by
  intro cfg
  have hscheme : ∀ x : PyStr,
      ((pyOfString "http://").isPrefixOf
          (if (pyOfString "http://").isPrefixOf x ∨ (pyOfString "https://").isPrefixOf x
           then x else pyOfString "https://" ++ x) ∨
        (pyOfString "https://").isPrefixOf
          (if (pyOfString "http://").isPrefixOf x ∨ (pyOfString "https://").isPrefixOf x
           then x else pyOfString "https://" ++ x)) := by
    intro x
    by_cases hx : (pyOfString "http://").isPrefixOf x ∨ (pyOfString "https://").isPrefixOf x
    · rw [if_pos hx]
      rcases hx with hx | hx
      · exact Or.inl hx
      · exact Or.inr hx
    · rw [if_neg hx]
      refine Or.inr ?_
      rw [List.isPrefixOf_iff_prefix]
      exact List.prefix_append _ _
  constructor
  · rintro ⟨he, hb, hki, hks⟩
    have he0 : cfg.oss_endpoint.getD [] ≠ [] := by
      intro hh
      rw [hh] at he
      exact he rfl
    have hnorm : normalize_oss_endpoint (cfg.oss_endpoint.getD []) =
        some (if (pyOfString "http://").isPrefixOf
                (pyRstripSlash (pyStrip (cfg.oss_endpoint.getD []))) ∨
              (pyOfString "https://").isPrefixOf
                (pyRstripSlash (pyStrip (cfg.oss_endpoint.getD []))) then
            pyRstripSlash (pyStrip (cfg.oss_endpoint.getD []))
          else pyOfString "https://" ++ pyRstripSlash (pyStrip (cfg.oss_endpoint.getD []))) := by
      unfold normalize_oss_endpoint
      rw [if_neg (by push_neg; exact ⟨he0, he⟩)]
      by_cases hpre : ((pyOfString "http://").isPrefixOf
          (pyRstripSlash (pyStrip (cfg.oss_endpoint.getD []))) = true ∨
          (pyOfString "https://").isPrefixOf
          (pyRstripSlash (pyStrip (cfg.oss_endpoint.getD []))) = true)
      · rw [if_pos hpre, if_pos hpre]
      · rw [if_neg hpre, if_neg hpre]
    have hmain : create_long_term_backend_from_config cfg =
        BackendChoice.oss (pyStrip (cfg.oss_bucket.getD []))
          (pyStrip (cfg.oss_access_key_id.getD []))
          (pyStrip (cfg.oss_access_key_secret.getD []))
          (if (pyOfString "http://").isPrefixOf
                (pyRstripSlash (pyStrip (cfg.oss_endpoint.getD []))) ∨
              (pyOfString "https://").isPrefixOf
                (pyRstripSlash (pyStrip (cfg.oss_endpoint.getD []))) then
            pyRstripSlash (pyStrip (cfg.oss_endpoint.getD []))
          else pyOfString "https://" ++ pyRstripSlash (pyStrip (cfg.oss_endpoint.getD []))) := by
      unfold create_long_term_backend_from_config
      simp only [if_neg he0, hnorm]
      rw [if_pos ⟨hb, hki, hks⟩]
    refine ⟨hmain, ?_⟩
    intro b ki ks e heq
    rw [hmain] at heq
    injection heq with h1 h2 h3 h4
    rw [← h4]
    exact hscheme _
  · intro hnc
    unfold create_long_term_backend_from_config
    by_cases hb : (pyStrip (cfg.oss_bucket.getD []) ≠ [] ∧
        pyStrip (cfg.oss_access_key_id.getD []) ≠ [] ∧
        pyStrip (cfg.oss_access_key_secret.getD []) ≠ [])
    · have he : pyStrip (cfg.oss_endpoint.getD []) = [] :=
        not_not.mp (fun hh => hnc ⟨hh, hb⟩)
      by_cases he0 : cfg.oss_endpoint.getD [] = []
      · simp [he0]
      · have hnorm0 : normalize_oss_endpoint (cfg.oss_endpoint.getD []) = none := by
          unfold normalize_oss_endpoint
          rw [if_pos (Or.inr he)]
        simp [he0, hnorm0]
    · cases hep : (if cfg.oss_endpoint.getD [] = [] then none
        else normalize_oss_endpoint (cfg.oss_endpoint.getD [])) with
      | none => simp [hep]
      | some e => simp [hep, hb]

/-- Witness for C7: a complete configuration (with a bare, slash-terminated
endpoint) yields `OssStorage` with a normalized endpoint; an incomplete one
yields the in-memory backend. -/
theorem claim_C7_witness :
    create_long_term_backend_from_config
      ⟨some (pyOfString " oss-cn.aliyuncs.com// "), some (pyOfString "bkt"),
        some (pyOfString "id"), some (pyOfString "sec")⟩ =
      BackendChoice.oss (pyOfString "bkt") (pyOfString "id") (pyOfString "sec")
        (pyOfString "https://oss-cn.aliyuncs.com") ∧
    create_long_term_backend_from_config
      ⟨some (pyOfString "h"), some (pyOfString "  "), some (pyOfString "id"),
        some (pyOfString "sec")⟩ = BackendChoice.inMemory := by
  constructor
  · have h := (claim_C7 ⟨some (pyOfString " oss-cn.aliyuncs.com// "), some (pyOfString "bkt"),
      some (pyOfString "id"), some (pyOfString "sec")⟩).1
      (by refine ⟨?_, ?_, ?_, ?_⟩ <;> decide)
    rw [h.1]
    decide
  · exact (claim_C7 ⟨some (pyOfString "h"), some (pyOfString "  "), some (pyOfString "id"),
      some (pyOfString "sec")⟩).2 (by decide)

/-- C2: for every list of triples (including non-ASCII strings and the empty
list), `parse_triples(serialize_triples(t))` recovers `t` in order, and for a
nonempty `t` the serialized payload splits on newlines into exactly one
3-element JSON array line per triple, in order. -/
theorem claim_C2 : ∀ t : List Triple,
    parse_triples (serialize_triples t) = some t ∧
    (t ≠ [] → splitLines (serialize_triples t) =
      t.map fun tr => json_dumps (JsonValue.arr [.str tr.1, .str tr.2.1, .str tr.2.2])) := by
  intro t
  refine ⟨parse_serialize_triples t, ?_⟩
  intro hne
  show splitLines (joinLines (t.map fun tr =>
    printValue (JsonValue.arr [.str tr.1, .str tr.2.1, .str tr.2.2]))) = _
  rw [splitLines_joinLines _ (by
      intro h
      exact hne (by simpa using h)) ?hnl]
  case hnl =>
    intro l hl
    simp only [List.mem_map] at hl
    obtain ⟨tr, _, hleq⟩ := hl
    rw [← hleq]
    exact newline_not_mem_tripleLine _ _ _
  rfl

/-- Witness for C2 at a one-triple non-ASCII collection. -/
theorem claim_C2_witness :
    parse_triples (serialize_triples
      [(pyOfString "用户", pyOfString "使用", pyOfString "BOS")]) =
      some [(pyOfString "用户", pyOfString "使用", pyOfString "BOS")] ∧
    splitLines (serialize_triples
      [(pyOfString "用户", pyOfString "使用", pyOfString "BOS")]) =
      [(pyOfString "用户", pyOfString "使用", pyOfString "BOS")].map fun tr =>
        json_dumps (JsonValue.arr [.str tr.1, .str tr.2.1, .str tr.2.2]) :=
  ⟨(claim_C2 _).1, (claim_C2 _).2 (by decide)⟩

theorem escapeChar_nonascii (c : Char) (hc : 128 ≤ c.toNat) : escapeChar c = [c] := by
  unfold escapeChar
  rw [if_neg (char_ne_of_toNat_ne c '"'
        (by rw [show ('"' : Char).toNat = 34 from rfl]; omega)),
      if_neg (char_ne_of_toNat_ne c '\\'
        (by rw [show ('\\' : Char).toNat = 92 from rfl]; omega)),
      if_neg (char_ne_of_toNat_ne c (Char.ofNat 8)
        (by rw [charToNat_ofNat 8 (by omega)]; omega)),
      if_neg (char_ne_of_toNat_ne c (Char.ofNat 12)
        (by rw [charToNat_ofNat 12 (by omega)]; omega)),
      if_neg (char_ne_of_toNat_ne c '\n'
        (by rw [show ('\n' : Char).toNat = 10 from rfl]; omega)),
      if_neg (char_ne_of_toNat_ne c '\r'
        (by rw [show ('\r' : Char).toNat = 13 from rfl]; omega)),
      if_neg (char_ne_of_toNat_ne c '\t'
        (by rw [show ('\t' : Char).toNat = 9 from rfl]; omega)),
      if_neg (show ¬ c.toNat < 32 by omega)]

/-- C5: `parse_profile(serialize_profile(p))` recovers every well-formed
profile value `p` (objects have the distinct keys every Python dict has), and
`serialize_profile` keeps non-ASCII characters literal: the encoder maps every
non-ASCII character to itself, so each non-ASCII character of a string value
appears literally in the encoded payload. -/
theorem claim_C5 :
    (∀ p : JsonValue, wfValue p = true → parse_profile (serialize_profile p) = some p) ∧
    (∀ c : Char, 128 ≤ c.toNat → escapeChar c = [c]) ∧
    (∀ (s : PyStr) (c : Char), c ∈ s → 128 ≤ c.toNat →
      c ∈ serialize_profile (JsonValue.str s)) := by
  refine ⟨fun p h => parse_serialize_profile p h, fun c hc => escapeChar_nonascii c hc, ?_⟩
  intro s c hcs hc
  show c ∈ '"' :: escapeString s ++ ['"']
  simp only [List.cons_append, List.mem_cons, List.mem_append, List.mem_singleton]
  refine Or.inr (Or.inl ?_)
  unfold escapeString
  rw [List.mem_flatMap]
  exact ⟨c, hcs, by rw [escapeChar_nonascii c hc]; simp⟩

/-- Witness for C5 at a Chinese-text profile. -/
theorem claim_C5_witness :
    parse_profile (serialize_profile (JsonValue.obj [(pyOfString "traits",
      JsonValue.obj [(pyOfString "communication_style",
        JsonValue.str (pyOfString "简洁"))])])) =
      some (JsonValue.obj [(pyOfString "traits",
        JsonValue.obj [(pyOfString "communication_style",
          JsonValue.str (pyOfString "简洁"))])]) ∧
    escapeChar '简' = ['简'] ∧
    '简' ∈ serialize_profile (JsonValue.str (pyOfString "简洁")) :=
  ⟨claim_C5.1 _ (by decide), claim_C5.2.1 '简' (by decide),
   claim_C5.2.2 (pyOfString "简洁") '简' (by decide) (by decide)⟩

/-- C4: decode tolerance of `parse_triples` — blank or whitespace-only lines
never change the result; a line holding a JSON array of fewer than 3 elements
is silently dropped; a line holding a JSON array of more than 3 elements
contributes exactly the `str()`-coercions of its first three elements. -/
theorem claim_C4 :
    (∀ ls : List PyStr, (∀ l ∈ ls, '\n' ∉ l) →
      parse_triples (joinLines ls) =
        parse_triples (joinLines (ls.filter fun l => !(pyStrip l).isEmpty))) ∧
    (∀ (l : PyStr) (ls1 ls2 : List PyStr) (xs : List JsonValue),
      json_loads (pyStrip l) = some (JsonValue.arr xs) → xs.length < 3 →
      parseTriplesLines (ls1 ++ l :: ls2) = parseTriplesLines (ls1 ++ ls2)) ∧
    (∀ (l : PyStr) (ls : List PyStr) (xs : List JsonValue),
      json_loads (pyStrip l) = some (JsonValue.arr xs) → 3 < xs.length →
      parseTriplesLines (l :: ls) = (parseTriplesLines ls).map
        ((pyStrOf (xs.getD 0 .null), pyStrOf (xs.getD 1 .null),
          pyStrOf (xs.getD 2 .null)) :: ·)) := by
  refine ⟨?_, ?_, ?_⟩
  · intro ls hnl
    cases ls with
    | nil => rfl
    | cons l0 ls0 =>
      rw [parse_triples_eq_lines, parse_triples_eq_lines]
      rw [splitLines_joinLines (l0 :: ls0) (by simp) hnl]
      cases hf : (l0 :: ls0).filter (fun l => !(pyStrip l).isEmpty) with
      | nil =>
        have hall : ∀ l ∈ l0 :: ls0, pyStrip l = [] := by
          intro l hl
          by_contra hne
          have hmem : l ∈ (l0 :: ls0).filter (fun l => !(pyStrip l).isEmpty) :=
            List.mem_filter.mpr ⟨hl, by simp [List.isEmpty_iff, hne]⟩
          rw [hf] at hmem
          exact absurd hmem (by simp)
        rw [parseTriplesLines_all_blank _ hall]
        rfl
      | cons f0 fs0 =>
        rw [splitLines_joinLines (f0 :: fs0) (by simp) (by
          intro l hl
          exact hnl l (List.mem_of_mem_filter (hf ▸ hl)))]
        rw [← hf, parseTriplesLines_filter_blank]
  · intro l ls1 ls2 xs hl hlen
    exact parseTriplesLines_middle_skip l (lineRes_short_arr l xs hl hlen) ls1 ls2
  · intro l ls xs hl hlen
    rw [parseTriplesLines, lineRes_long_arr l xs hl (by omega)]

/-- Witness for C4: a payload with blank lines, a 2-element line, and a
4-element line. -/
theorem claim_C4_witness :
    parse_triples (joinLines
      [pyOfString "[\"a\", \"b\", \"c\"]", pyOfString "", pyOfString "  "]) =
      parse_triples (joinLines
        ([pyOfString "[\"a\", \"b\", \"c\"]", pyOfString "", pyOfString "  "].filter
          fun l => !(pyStrip l).isEmpty)) ∧
    parseTriplesLines ([] ++ pyOfString "[\"a\", \"b\"]" :: []) =
      parseTriplesLines ([] ++ []) ∧
    parseTriplesLines [pyOfString "[\"a\", \"b\", \"c\", \"d\"]"] =
      (parseTriplesLines []).map
        ((pyStrOf (([JsonValue.str (pyOfString "a"), .str (pyOfString "b"),
            .str (pyOfString "c"), .str (pyOfString "d")]).getD 0 .null),
          pyStrOf (([JsonValue.str (pyOfString "a"), .str (pyOfString "b"),
            .str (pyOfString "c"), .str (pyOfString "d")]).getD 1 .null),
          pyStrOf (([JsonValue.str (pyOfString "a"), .str (pyOfString "b"),
            .str (pyOfString "c"), .str (pyOfString "d")]).getD 2 .null)) :: ·) :=
  ⟨claim_C4.1 _ (by decide),
   claim_C4.2.1 (pyOfString "[\"a\", \"b\"]") [] []
     [JsonValue.str (pyOfString "a"), .str (pyOfString "b")] (by rfl) (by decide),
   claim_C4.2.2 (pyOfString "[\"a\", \"b\", \"c\", \"d\"]") []
     [JsonValue.str (pyOfString "a"), .str (pyOfString "b"),
      .str (pyOfString "c"), .str (pyOfString "d")] (by rfl) (by decide)⟩

/-- C6: not-found is never an error — an absent profile key yields `None`
without raising and an absent knowledge key yields the empty list without
raising — while a malformed stored payload (invalid JSON in the profile, or an
invalid non-blank triple line) makes the load raise a decode error that
propagates to the caller (`none` in the model). -/
theorem claim_C6 :
    (∀ (st : InMemoryStore) (u : PyStr), get_object (profile_key u) st = none →
      load_user_profile st u = some none) ∧
    (∀ (st : InMemoryStore) (u : PyStr), get_object (knowledge_key u) st = none →
      load_knowledge_triples st u = some []) ∧
    (∀ (st : InMemoryStore) (u : PyStr) (data : Bytes),
      get_object (profile_key u) st = some data → json_loads data = none →
      load_user_profile st u = none) ∧
    (∀ (st : InMemoryStore) (u : PyStr) (data : Bytes),
      get_object (knowledge_key u) st = some data → parse_triples data = none →
      load_knowledge_triples st u = none) ∧
    (∀ (raw : Bytes) (l : PyStr), l ∈ splitLines raw → pyStrip l ≠ [] →
      json_loads (pyStrip l) = none → parse_triples raw = none) := by
  refine ⟨?_, ?_, ?_, ?_, ?_⟩
  · intro st u h
    simp [load_user_profile, h]
  · intro st u h
    simp [load_knowledge_triples, h]
  · intro st u data h1 h2
    simp [load_user_profile, h1, parse_profile, h2]
  · intro st u data h1 h2
    simp [load_knowledge_triples, h1, h2]
  · intro raw l hmem hne hbad
    rw [parse_triples_eq_lines]
    exact parseTriplesLines_bad_line _ l hmem hne hbad

/-- Witness for C6: an empty store yields the absent values; a store holding
an invalid payload raises. -/
theorem claim_C6_witness :
    load_user_profile emptyStore (pyOfString "u1") = some none ∧
    load_knowledge_triples emptyStore (pyOfString "u1") = some [] ∧
    load_user_profile
      [(profile_key (pyOfString "u1"), pyOfString "not json")] (pyOfString "u1") = none ∧
    load_knowledge_triples
      [(knowledge_key (pyOfString "u1"), pyOfString "not json")] (pyOfString "u1") = none ∧
    parse_triples (pyOfString "not json") = none :=
  ⟨claim_C6.1 emptyStore _ rfl,
   claim_C6.2.1 emptyStore _ rfl,
   claim_C6.2.2.1 _ _ (pyOfString "not json") (by decide) (by rfl),
   claim_C6.2.2.2.1 _ _ (pyOfString "not json") (by decide) (by rfl),
   claim_C6.2.2.2.2 (pyOfString "not json") (pyOfString "not json") (by decide)
     (by decide) (by rfl)⟩

/-- C1: retrieval — after saving a collection, an empty or whitespace-only
query returns the first `top_k` triples in stored order; a non-empty query
returns exactly the triples whose space-joined field concatenation contains
the trimmed query case-insensitively, in stored order, truncated to `top_k`;
a user with no stored triples gets the empty list for any query; and the
end-to-end scenario over the three Chinese triples returns exactly the `BOS`
triple. -/
theorem claim_C1 :
    (∀ (st : InMemoryStore) (u : PyStr) (t : List Triple) (q : PyStr) (k : Int),
      0 ≤ k → pyStrip q = [] →
      retrieve_relevant_knowledge (save_knowledge_triples st u t) u q k =
        some (t.take k.toNat)) ∧
    (∀ (st : InMemoryStore) (u : PyStr) (t : List Triple) (q : PyStr) (k : Int),
      0 ≤ k → pyStrip q ≠ [] →
      retrieve_relevant_knowledge (save_knowledge_triples st u t) u q k =
        some ((t.filter (tripleMatches q)).take k.toNat)) ∧
    (∀ (st : InMemoryStore) (u q : PyStr) (k : Int),
      get_object (knowledge_key u) st = none →
      retrieve_relevant_knowledge st u q k = some []) ∧
    retrieve_relevant_knowledge
      (save_knowledge_triples emptyStore (pyOfString "u1")
        [(pyOfString "用户", pyOfString "使用", pyOfString "BOS"),
         (pyOfString "用户", pyOfString "部署", pyOfString "AI服务"),
         (pyOfString "项目", pyOfString "使用", pyOfString "PostgreSQL")])
      (pyOfString "u1") (pyOfString "BOS") 5 =
      some [(pyOfString "用户", pyOfString "使用", pyOfString "BOS")] := by
  refine ⟨?_, ?_, ?_, ?_⟩
  · intro st u t q k hk hq
    rw [retrieve_after_save, if_pos hq, pySliceTo_nonneg k hk]
  · intro st u t q k hk hq
    rw [retrieve_after_save, if_neg hq, pySliceTo_nonneg k hk]
  · intro st u q k h
    exact retrieve_absent st u q k h
  · decide

/-- Witness for C1 at small concrete stores and queries. -/
theorem claim_C1_witness :
    retrieve_relevant_knowledge
      (save_knowledge_triples emptyStore (pyOfString "u")
        [(pyOfString "a", pyOfString "b", pyOfString "c"),
         (pyOfString "d", pyOfString "e", pyOfString "f")])
      (pyOfString "u") (pyOfString " ") 1 =
      some ([(pyOfString "a", pyOfString "b", pyOfString "c"),
             (pyOfString "d", pyOfString "e", pyOfString "f")].take (Int.toNat 1)) ∧
    retrieve_relevant_knowledge
      (save_knowledge_triples emptyStore (pyOfString "u")
        [(pyOfString "a", pyOfString "b", pyOfString "c"),
         (pyOfString "d", pyOfString "e", pyOfString "f")])
      (pyOfString "u") (pyOfString "E") 5 =
      some (([(pyOfString "a", pyOfString "b", pyOfString "c"),
              (pyOfString "d", pyOfString "e", pyOfString "f")].filter
        (tripleMatches (pyOfString "E"))).take (Int.toNat 5)) ∧
    retrieve_relevant_knowledge emptyStore (pyOfString "u") (pyOfString "x") 3 = some [] :=
  ⟨claim_C1.1 emptyStore _ _ _ 1 (by decide) (by decide),
   claim_C1.2.1 emptyStore _ _ _ 5 (by decide) (by decide),
   claim_C1.2.2.1 emptyStore _ _ 3 rfl⟩

/-- C10: a negative `top_k` does not raise: retrieval returns the matching
list (the stored list for a blank query) with its last `|top_k|` elements
removed, per Python slice semantics — in particular a two-triple store
queried with `top_k = -1` returns one triple, not the empty list. -/
theorem claim_C10 :
    (∀ (st : InMemoryStore) (u : PyStr) (t : List Triple) (q : PyStr) (k : Int),
      k < 0 →
      retrieve_relevant_knowledge (save_knowledge_triples st u t) u q k =
        some (if pyStrip q = [] then t.take (t.length - k.natAbs)
              else (t.filter (tripleMatches q)).take
                ((t.filter (tripleMatches q)).length - k.natAbs))) ∧
    retrieve_relevant_knowledge
      (save_knowledge_triples emptyStore (pyOfString "u1")
        [(pyOfString "a", pyOfString "b", pyOfString "c"),
         (pyOfString "d", pyOfString "e", pyOfString "f")])
      (pyOfString "u1") [] (-1) =
      some [(pyOfString "a", pyOfString "b", pyOfString "c")] := by
  refine ⟨?_, ?_⟩
  · intro st u t q k hk
    rw [retrieve_after_save]
    by_cases hq : pyStrip q = [] <;> simp [hq, pySliceTo_neg k hk]
  · decide

/-- Witness for C10 at a concrete two-triple store with `top_k = -1`. -/
theorem claim_C10_witness :
    retrieve_relevant_knowledge
      (save_knowledge_triples emptyStore (pyOfString "u")
        [(pyOfString "a", pyOfString "b", pyOfString "c"),
         (pyOfString "d", pyOfString "e", pyOfString "f")])
      (pyOfString "u") (pyOfString "") (-1) =
      some (if pyStrip (pyOfString "") = [] then
              [(pyOfString "a", pyOfString "b", pyOfString "c"),
               (pyOfString "d", pyOfString "e", pyOfString "f")].take
                (([(pyOfString "a", pyOfString "b", pyOfString "c"),
                   (pyOfString "d", pyOfString "e", pyOfString "f")] :
                    List Triple).length - Int.natAbs (-1))
            else ([(pyOfString "a", pyOfString "b", pyOfString "c"),
                   (pyOfString "d", pyOfString "e", pyOfString "f")].filter
              (tripleMatches (pyOfString ""))).take
                (([(pyOfString "a", pyOfString "b", pyOfString "c"),
                   (pyOfString "d", pyOfString "e", pyOfString "f")].filter
                  (tripleMatches (pyOfString ""))).length - Int.natAbs (-1))) :=
  claim_C10.1 emptyStore _ _ _ (-1) (by decide)

end MemoryBase
